import Mathlib

/-!
# Verification of the `nurses` cooperative scheduler and widget toolkit

Shallow embedding of the cooperative round-robin scheduler
(`nurses/scheduler.py`), the geometry resolver and compositing clip rule
(`nurses/widgets/widget.py`), and the key-dispatch walk, together with
proofs and refutations of the specified properties.

Rationals (`ℚ`) stand for Python's floating point clock and delay values:
every scenario considered uses values and arithmetic that are exact in
both systems.  Python heap-allocated `Task` objects are identified by a
numeric id (standing for `id(task.coro)`); the mutable `is_canceled` flag
shared by every alias of one object is modelled as the set of ids that
have been marked canceled.
-/

namespace Nurses

/-- Python's builtin `round`: round half to even (exact on our rationals). -/
def pyRound (q : ℚ) : ℤ :=
  if q - ⌊q⌋ < 1/2 then ⌊q⌋
  else if (1/2 : ℚ) < q - ⌊q⌋ then ⌊q⌋ + 1
  else if 2 ∣ ⌊q⌋ then ⌊q⌋ else ⌊q⌋ + 1

/-- A position / size specification as passed to `Widget.convert`:
a Python `float` (fractional spec) or `int` (absolute spec). -/
inductive PosSpec where
  | i (n : ℤ)
  | f (q : ℚ)
deriving DecidableEq, Repr

/-- Embedding of `Widget.convert` (widgets/widget.py lines 266-272):

    if isinstance(pos, float):
        pos = round(pos * bounds)
    return pos + bounds if pos < 0 else pos
-/
def convert (pos : PosSpec) (bounds : ℤ) : ℤ :=
  match pos with
  | .f q =>
      if pyRound (q * bounds) < 0 then pyRound (q * bounds) + bounds
      else pyRound (q * bounds)
  | .i n => if n < 0 then n + bounds else n

/-- The geometry-relevant state of a `Widget` (widgets/widget.py):
resolved absolute coordinates, optional dimensions, and the per-axis
hint pairs. -/
structure WidgetGeom where
  top : ℤ
  left : ℤ
  height : Option ℤ
  width : Option ℤ
  pos_hint : Option PosSpec × Option PosSpec
  size_hint : Option PosSpec × Option PosSpec
deriving DecidableEq, Repr

/-- Modelled from the spec: `nurses/observable.py` (imported by
widgets/widget.py but not part of the sources) makes the attributes
`top`, `left`, `height`, `width` observable, and the `bind_to`
declarations in widgets/widget.py lines 110-124 attach callbacks so that
"setting `top`/`left` directly clears the corresponding `pos_hint`
component; setting `height`/`width` directly clears the corresponding
`size_hint` component".  `setTop w v` is the effect of the Python
assignment `w.top = v` including its bound callback `_set_pos_hint_y`. -/
def setTop (w : WidgetGeom) (v : ℤ) : WidgetGeom :=
  { w with top := v, pos_hint := (none, w.pos_hint.2) }

/-- Modelled from the spec: effect of `w.left = v` with its bound
callback `_set_pos_hint_x` (see `setTop`). -/
def setLeft (w : WidgetGeom) (v : ℤ) : WidgetGeom :=
  { w with left := v, pos_hint := (w.pos_hint.1, none) }

/-- Modelled from the spec: effect of `w.height = v` with its bound
callback `_set_size_hint_y` (see `setTop`). -/
def setHeight (w : WidgetGeom) (v : ℤ) : WidgetGeom :=
  { w with height := some v, size_hint := (none, w.size_hint.2) }

/-- Modelled from the spec: effect of `w.width = v` with its bound
callback `_set_size_hint_x` (see `setTop`). -/
def setWidth (w : WidgetGeom) (v : ℤ) : WidgetGeom :=
  { w with width := some v, size_hint := (w.size_hint.1, none) }

/-- Embedding of `Widget.update_geometry` (widgets/widget.py lines
126-156) for a rooted widget, as a function of the parent's current
`height` `h` and `width` `pw`.  The window allocation / resize and the
recursion into children (lines 158-165) have no effect on the geometry
fields modelled here.  Assignments to `top`/`left`/`height`/`width` go
through the observable setters, firing the hint-clearing callbacks, and
the saved hint pairs are re-assigned afterwards exactly as in the
source. -/
def update_geometry (w : WidgetGeom) (h pw : ℤ) : WidgetGeom :=
  let th := w.pos_hint.1
  let lh := w.pos_hint.2
  let w := match th with
    | some t => setTop w (convert t h)
    | none => w
  let w := match lh with
    | some l => setLeft w (convert l pw)
    | none => w
  let w := { w with pos_hint := (th, lh) }
  let hh := w.size_hint.1
  let wh := w.size_hint.2
  let w := match hh with
    | some s => setHeight w (convert s h)
    | none => w
  let w := match wh with
    | some s => setWidth w (convert s pw)
    | none => w
  let w := if w.height = none then setHeight w h else w
  let w := if w.width = none then setWidth w (pw - 1) else w
  { w with size_hint := (hh, wh) }

/-- Embedding of the blit-argument computation in `Widget.refresh`
(widgets/widget.py lines 258-262), for one child at offset `(y, x)` with
dimensions `(ch, cw)` inside a parent of dimensions `(h, w)`:

    src_t, des_t = (-y, 0) if y < 0 else (0, y)
    src_l, des_l = (-x, 0) if x < 0 else (0, x)
    des_h = min(h - 1, des_t + widget.height)
    des_w = min(w - 1, des_l + widget.width - 1)

Returns `(src_t, src_l, des_t, des_l, des_h, des_w)`. -/
def refreshClip (y x ch cw h w : ℤ) : ℤ × ℤ × ℤ × ℤ × ℤ × ℤ :=
  let src_t := if y < 0 then -y else 0
  let des_t := if y < 0 then 0 else y
  let src_l := if x < 0 then -x else 0
  let des_l := if x < 0 then 0 else x
  let des_h := min (h - 1) (des_t + ch)
  let des_w := min (w - 1) (des_l + cw - 1)
  (src_t, src_l, des_t, des_l, des_h, des_w)

/-- The clipping rule exactly as the spec words it: source offsets
`max(0, -top)` / `max(0, -left)`, destination offsets `max(0, top)` /
`max(0, left)`, destination extents `min(parentHeight - 1, des_t +
childHeight)` and `min(parentWidth - 1, des_l + childWidth - 1)`. -/
def specClip (top left childH childW parentH parentW : ℤ) :
    ℤ × ℤ × ℤ × ℤ × ℤ × ℤ :=
  (max 0 (-top), max 0 (-left), max 0 top, max 0 left,
   min (parentH - 1) (max 0 top + childH),
   min (parentW - 1) (max 0 left + childW - 1))

/-! ## Key dispatch (widgets/widget.py lines 274-277)

A widget tree is modelled with a numeric instrumentation id per node and
the truthiness of the node's `on_press(key)` for the key being
dispatched.  `dispatch` returns whether the key was handled together
with the ordered list of ids of the widgets whose `on_press` was
invoked. -/

/-- A widget tree node: instrumentation id, whether its own `on_press`
reports the dispatched key as handled, and its children in z-order
(index 0 = back, last = front). -/
inductive WTree where
  | node (wid : Nat) (handles : Bool) (children : List WTree)
deriving Repr

/-- Instrumentation id of a node. -/
def WTree.wid : WTree → Nat
  | .node i _ _ => i

/-- Truthiness of the node's own `on_press(key)`. -/
def WTree.on_press : WTree → Bool
  | .node _ h _ => h

theorem WTree.sizeOf_append (l₁ l₂ : List WTree) :
    sizeOf (l₁ ++ l₂) + 1 = sizeOf l₁ + sizeOf l₂ := by
  induction l₁ with
  | nil => simp; omega
  | cons a t ih => simp only [List.cons_append, List.cons.sizeOf_spec]; omega

theorem WTree.sizeOf_reverse (l : List WTree) :
    sizeOf l.reverse = sizeOf l := by
  induction l with
  | nil => rfl
  | cons a t ih =>
      have h := WTree.sizeOf_append t.reverse [a]
      simp only [List.cons.sizeOf_spec, List.nil.sizeOf_spec] at h
      simp only [List.reverse_cons, List.cons.sizeOf_spec]
      omega

mutual

/-- Embedding of `Widget.dispatch` (widgets/widget.py lines 274-277):

    for widget in reversed(self.children):
        if widget.on_press(key) or widget.dispatch(key):
            return True

The boolean is the truthiness of the Python return value (`True` or the
falsy `None`); the list records, in order, the id of every widget whose
`on_press` was called. -/
def dispatch : WTree → Bool × List Nat
  | .node _ _ cs => dispatchChildren cs.reverse
termination_by t => sizeOf t
decreasing_by
  simp only [WTree.sizeOf_reverse, WTree.node.sizeOf_spec]
  omega

/-- The loop body of `dispatch` over the reversed children list. -/
def dispatchChildren : List WTree → Bool × List Nat
  | [] => (false, [])
  | c :: rest =>
    if c.on_press then (true, [c.wid])
    else
      let p := dispatch c
      if p.1 then (true, c.wid :: p.2)
      else
        let q := dispatchChildren rest
        (q.1, c.wid :: p.2 ++ q.2)
termination_by l => sizeOf l
decreasing_by
  all_goals simp only [List.cons.sizeOf_spec]
  all_goals omega

end

mutual

/-- The order in which the spec says widgets are visited: children
back-to-front-reversed (front first), each widget before its own
descendants. -/
def preorderRev : WTree → List WTree
  | .node _ _ cs => preorderRevList cs.reverse
termination_by t => sizeOf t
decreasing_by
  simp only [WTree.sizeOf_reverse, WTree.node.sizeOf_spec]
  omega

/-- Preorder walk over a list of trees, first tree first. -/
def preorderRevList : List WTree → List WTree
  | [] => []
  | c :: rest => c :: (preorderRev c ++ preorderRevList rest)
termination_by l => sizeOf l
decreasing_by
  all_goals simp only [List.cons.sizeOf_spec]
  all_goals omega

end

/-- The spec's account of a dispatch: visit the given walk order widget
by widget and stop at the first one whose handler reports the key
handled; result is whether some handler handled it, and the ids of all
handlers invoked. -/
def specVisit : List WTree → Bool × List Nat
  | [] => (false, [])
  | c :: tl =>
      if c.on_press then (true, [c.wid])
      else ((specVisit tl).1, c.wid :: (specVisit tl).2)

/-! ## CPython `heapq`

`nurses/scheduler.py` stores sleeping tasks in a list managed by
`heapq.heappush` / `heapq.heappop`, comparing elements with
`Task.__lt__` (which compares deadlines only).  The embedding follows
the CPython implementation of `_siftdown` and `_siftup` step for step,
with comparison `key a < key b`.  The loops are written with an explicit
fuel argument so that they reduce in the kernel; the callers pass fuel
that is provably at least the number of iterations the Python loop
performs. -/

section Heapq

variable {α : Type} [Inhabited α]

/-- CPython `heapq._siftdown(heap, startpos, pos)` with
`newitem = heap[pos]` saved by the caller:

    while pos > startpos:
        parentpos = (pos - 1) >> 1
        parent = heap[parentpos]
        if newitem < parent:
            heap[pos] = parent
            pos = parentpos
            continue
        break
    heap[pos] = newitem
-/
def siftdownLoop (key : α → ℚ) (newitem : α) (startpos : Nat) :
    Nat → List α → Nat → List α
  | 0, heap, pos => heap.set pos newitem
  | fuel + 1, heap, pos =>
    if startpos < pos then
      if key newitem < key (heap.getD ((pos - 1) / 2) default) then
        siftdownLoop key newitem startpos fuel
          (heap.set pos (heap.getD ((pos - 1) / 2) default)) ((pos - 1) / 2)
      else heap.set pos newitem
    else heap.set pos newitem

/-- The child index `_siftup` walks into: the right child
`2*pos + 2` when it exists and `not heap[childpos] < heap[rightpos]`,
the left child `2*pos + 1` otherwise. -/
def chooseChild (key : α → ℚ) (endpos : Nat) (heap : List α) (pos : Nat) : Nat :=
  if 2 * pos + 2 < endpos ∧
      ¬ key (heap.getD (2 * pos + 1) default) <
        key (heap.getD (2 * pos + 2) default)
    then 2 * pos + 2 else 2 * pos + 1

/-- The while loop of CPython `heapq._siftup(heap, pos)`:

    while childpos < endpos:
        rightpos = childpos + 1
        if rightpos < endpos and not heap[childpos] < heap[rightpos]:
            childpos = rightpos
        heap[pos] = heap[childpos]
        pos = childpos
        childpos = 2*pos + 1

Returns the updated list together with the final `pos`. -/
def siftupLoop (key : α → ℚ) (endpos : Nat) :
    Nat → List α → Nat → List α × Nat
  | 0, heap, pos => (heap, pos)
  | fuel + 1, heap, pos =>
    if 2 * pos + 1 < endpos then
      siftupLoop key endpos fuel
        (heap.set pos (heap.getD (chooseChild key endpos heap pos) default))
        (chooseChild key endpos heap pos)
    else (heap, pos)

/-- CPython `heapq._siftup(heap, pos)`: walk the smaller children up
into the hole, place `newitem` at the bottom, then `_siftdown` back up
towards `startpos = pos`. -/
def siftup (key : α → ℚ) (heap : List α) (pos : Nat) : List α :=
  siftdownLoop key (heap.getD pos default) pos
    (siftupLoop key heap.length heap.length heap pos).2
    ((siftupLoop key heap.length heap.length heap pos).1.set
      (siftupLoop key heap.length heap.length heap pos).2 (heap.getD pos default))
    (siftupLoop key heap.length heap.length heap pos).2

/-- CPython `heapq.heappush(heap, item)`:

    heap.append(item)
    _siftdown(heap, 0, len(heap)-1)
-/
def heappush (key : α → ℚ) (heap : List α) (item : α) : List α :=
  siftdownLoop key item 0 heap.length (heap ++ [item]) heap.length

/-- CPython `heapq.heappop(heap)`:

    lastelt = heap.pop()
    if heap:
        returnitem = heap[0]
        heap[0] = lastelt
        _siftup(heap, 0)
        return returnitem
    return lastelt

Returns `none` on an empty heap (Python raises `IndexError`; the
scheduler only pops non-empty heaps). -/
def heappop (key : α → ℚ) (heap : List α) : Option (α × List α) :=
  match heap with
  | [] => none
  | _ :: _ =>
    match heap.dropLast with
    | [] => some (heap.getLastD default, [])
    | r0 :: rtl =>
        some (r0, siftup key ((r0 :: rtl).set 0 (heap.getLastD default)) 0)

end Heapq

/-! ## The cooperative scheduler (nurses/scheduler.py)

A task body is a finite program over the scheduler's suspension
primitives.  `act label` stands for an observable side effect (such as
the `callable(*args, **kwargs)` invocation inside `Scheduler.schedule`'s
wrapped coroutine); `sleepC d k` for `await self.sleep(d)`; `yieldC k`
for `await next_task()`; `forever label d` for the non-terminating
`while True: callable(...); await ...` coroutine that
`Scheduler.schedule` builds when `n == 0`. -/

/-- A coroutine body. -/
inductive Coro where
  | done
  | sleepC (delay : ℚ) (k : Coro)
  | yieldC (k : Coro)
  | act (label : Nat) (k : Coro)
  | forever (label : Nat) (delay : ℚ)
deriving DecidableEq, Repr

/-- What a single `coro.send(None)` does: raise `StopIteration`, or
suspend in `Scheduler.sleep` (having re-queued itself), or suspend in
`next_task` (control comes back with `self.current` still set). -/
inductive Outcome where
  | completed
  | slept (delay : ℚ) (k : Coro)
  | yielded (k : Coro)
deriving DecidableEq, Repr

/-- Run a coroutine body up to its next suspension point or completion,
returning the labels of the actions it performed and how it suspended. -/
def Coro.resume : Coro → List Nat × Outcome
  | .done => ([], .completed)
  | .sleepC d k => ([], .slept d k)
  | .yieldC k => ([], .yielded k)
  | .act l k => ((k.resume).1.cons l, (k.resume).2)
  | .forever l d =>
      if 0 < d then ([l], .slept d (.forever l d))
      else ([l], .yielded (.forever l d))

/-- A scheduler `Task` (scheduler.py lines 12-23): the coroutine it
wraps (identified by `tid`, standing for the identity of the coroutine
object, together with its current continuation) and its wake deadline.
`Task.__lt__` compares `deadline` only.  The mutable `is_canceled` flag
is modelled in `Sched.canceled` (see the file header). -/
structure STask where
  tid : Nat
  coro : Coro
  deadline : ℚ
deriving DecidableEq, Repr

instance : Inhabited STask := ⟨⟨0, .done, 0⟩⟩

/-- The deadline key used by `Task.__lt__` for the heap comparisons. -/
def taskKey (t : STask) : ℚ := t.deadline

/-- An entry of the instrumentation log: the scheduler resumed a task's
body (`coro.send(None)` was reached, the body was entered), or a task's
body performed the action `label`, each stamped with the virtual time. -/
inductive Ev where
  | resumed (tid : Nat) (t : ℚ)
  | acted (tid : Nat) (label : Nat) (t : ℚ)
deriving DecidableEq, Repr

/-- Task id of a log event. -/
def Ev.tid : Ev → Nat
  | .resumed i _ => i
  | .acted i _ _ => i

/-- Scheduler state (scheduler.py lines 26-32) under a virtual clock:
`now` is the value `time()` returns, `ready` the deque, `sleeping` the
timer heap (CPython heapq list layout), `tasks` the registry dict keyed
by coroutine identity, `canceled` the set of task ids whose
`is_canceled` flag is `True`, and `log` the instrumentation log. -/
structure Sched where
  now : ℚ
  ready : List STask
  sleeping : List STask
  tasks : List (Nat × STask)
  canceled : List Nat
  log : List Ev
deriving DecidableEq, Repr

/-- The scheduler as constructed by `Scheduler.__init__`. -/
def initSched : Sched := ⟨0, [], [], [], [], []⟩

/-- Python `coro in self.tasks` (dict membership). -/
def dictMem (d : List (Nat × STask)) (k : Nat) : Bool :=
  d.any (fun p => p.1 == k)

/-- Python `self.tasks[coro] = task`: replace the entry if the key is
present, append it otherwise (dicts are insertion-ordered with unique
keys). -/
def dictSet (d : List (Nat × STask)) (k : Nat) (v : STask) :
    List (Nat × STask) :=
  if dictMem d k then d.map (fun p => if p.1 == k then (k, v) else p)
  else d ++ [(k, v)]

/-- Python `del self.tasks[coro]` (the run loop only deletes keys that
are present, so the missing-key `KeyError` path is not modelled). -/
def dictDel (d : List (Nat × STask)) (k : Nat) : List (Nat × STask) :=
  d.filter (fun p => p.1 != k)

/-- Embedding of `Task.cancel` (scheduler.py lines 19-20): set the
shared `is_canceled` flag of the task object with id `i`.  Setting a
flag that is already `True` leaves the state unchanged. -/
def taskCancel (s : Sched) (i : Nat) : Sched :=
  if i ∈ s.canceled then s else { s with canceled := s.canceled ++ [i] }

/-- Embedding of `Scheduler.cancel` for one coroutine (scheduler.py
lines 41-45): `self.tasks[coro].cancel()`.  The registry lookup raises
`KeyError` (modelled as `Except.error ()`) when the coroutine has no
registry entry. -/
def Sched.cancel (s : Sched) (i : Nat) : Except Unit Sched :=
  if dictMem s.tasks i then .ok (taskCancel s i) else .error ()

/-- Embedding of `Scheduler.run_soon` (scheduler.py lines 47-52): for
each coroutine, build a fresh `Task` and append it to the registry and
the ready deque. -/
def run_soon (s : Sched) (coros : List (Nat × Coro)) : Sched :=
  coros.foldl
    (fun s ic =>
      { s with
        tasks := dictSet s.tasks ic.1 ⟨ic.1, ic.2, 0⟩,
        ready := s.ready ++ [⟨ic.1, ic.2, 0⟩] })
    s

/-- The timer-expiry loop of `Scheduler.run` (scheduler.py lines 66-67):

    while sleeping and sleeping[0].deadline <= now:
        ready.append(heappop(sleeping))
-/
def moveExpired (now : ℚ) :
    Nat → List STask → List STask → List STask × List STask
  | 0, ready, sleeping => (ready, sleeping)
  | fuel + 1, ready, sleeping =>
    match sleeping with
    | [] => (ready, sleeping)
    | s0 :: _ =>
      if s0.deadline ≤ now then
        match heappop taskKey sleeping with
        | none => (ready, sleeping)
        | some (t, rest) => moveExpired now fuel (ready ++ [t]) rest
      else (ready, sleeping)

/-- The tail of a run-loop iteration after the current task has been
popped (scheduler.py lines 75-87): delete it from the registry, discard
it if canceled, otherwise `coro.send(None)` and, depending on how it
suspended, leave it parked in the timer heap (`Scheduler.sleep` already
re-queued it and cleared `self.current`), or re-append it to the ready
deque and registry. -/
def afterResume (s : Sched) (cur : STask) : Outcome → Sched
  | .completed => s
  | .slept d k =>
      { s with
        sleeping := heappush taskKey s.sleeping ⟨cur.tid, k, s.now + d⟩,
        tasks := dictSet s.tasks cur.tid ⟨cur.tid, k, s.now + d⟩ }
  | .yielded k =>
      { s with
        ready := s.ready ++ [⟨cur.tid, k, cur.deadline⟩],
        tasks := dictSet s.tasks cur.tid ⟨cur.tid, k, cur.deadline⟩ }

/-- The tail of a run-loop iteration after the current task has been
popped (scheduler.py lines 75-87): delete it from the registry, discard
it if canceled, otherwise `coro.send(None)` (logging the resumption and
its actions) and requeue it according to how it suspended via
`afterResume`. -/
def afterPop (s : Sched) (cur : STask) : Sched :=
  if cur.tid ∈ s.canceled then
    { s with tasks := dictDel s.tasks cur.tid }
  else
    afterResume
      { s with
        tasks := dictDel s.tasks cur.tid,
        log := s.log ++ Ev.resumed cur.tid s.now ::
          (cur.coro.resume).1.map (fun l => Ev.acted cur.tid l s.now) }
      cur (cur.coro.resume).2

/-- The nothing-ready arm of the loop (scheduler.py lines 71-73): pop
the minimum of the timer heap and block the whole process in
`time.sleep(deadline - now)` — under the virtual clock, `now` jumps to
the popped deadline.  An empty heap cannot occur under the loop
condition; the state is returned unchanged there. -/
def runIterPop (s : Sched) : Option (STask × List STask) → Sched
  | none => s
  | some (cur, rest) =>
      afterPop { s with ready := [], sleeping := rest, now := cur.deadline } cur

/-- Selecting the current task after the expiry loop (scheduler.py
lines 69-73): pop the front of the ready deque if any, otherwise pop the
timer heap. -/
def runIterPick (s : Sched) : List STask × List STask → Sched
  | (cur :: rest, sl) => afterPop { s with ready := rest, sleeping := sl } cur
  | ([], sl) => runIterPop { s with ready := [], sleeping := sl } (heappop taskKey sl)

/-- One iteration of the `while ready or sleeping` loop of
`Scheduler.run` (scheduler.py lines 63-87): run the timer-expiry loop,
pick the current task, and process it with `afterPop`. -/
def runIter (s : Sched) : Sched :=
  runIterPick s (moveExpired s.now s.sleeping.length s.ready s.sleeping)

/-- The `Scheduler.run` event loop with an explicit iteration budget
(the Python loop runs until both queues are empty, which need not
happen). -/
def run (fuel : Nat) (s : Sched) : Sched :=
  match fuel with
  | 0 => s
  | fuel + 1 =>
    if s.ready.isEmpty && s.sleeping.isEmpty then s
    else run fuel (runIter s)

/-- The coroutine `Scheduler.schedule` builds when `n` is non-zero:

    async def wrapped():
        for _ in range(n):
            callable(*args, **kwargs)
            await self.sleep(delay)   # or next_task() when delay <= 0
-/
def wrapped (label : Nat) (delay : ℚ) : Nat → Coro
  | 0 => .done
  | n + 1 =>
      .act label
        (if 0 < delay then .sleepC delay (wrapped label delay n)
         else .yieldC (wrapped label delay n))

/-- Embedding of `Scheduler.schedule` (scheduler.py lines 89-113):
build the wrapped coroutine (`while True` when `n == 0`), submit it with
`run_soon`, and hand back the registered task (identified by `tid`) so
the caller can `task.cancel()` it. -/
def schedule (s : Sched) (tid : Nat) (label : Nat) (delay : ℚ) (n : Nat) :
    Sched × Nat :=
  (run_soon s
    [(tid, if n = 0 then Coro.forever label delay else wrapped label delay n)],
   tid)

/-- The observable wake-ups: labels of the actions performed, in order. -/
def wakes (s : Sched) : List Nat :=
  s.log.filterMap (fun e => match e with | .acted _ l _ => some l | _ => none)

/-- Virtual times at which actions were performed, in order. -/
def actTimes (s : Sched) : List ℚ :=
  s.log.filterMap (fun e => match e with | .acted _ _ t => some t | _ => none)

/-! ## Heap correctness

The lemmas below establish the classical binary-heap facts for the
CPython `heapq` embedding: the sift loops permute the list, preserve the
heap shape invariant, and `heappop` returns a minimum element. -/

section HeapLemmas

variable {α : Type} [Inhabited α]

theorem getD_set_self {l : List α} {i : Nat} (h : i < l.length) (x d : α) :
    (l.set i x).getD i d = x := by
  simp [List.getD_eq_getElem?_getD, List.getElem?_set_self h]

theorem getD_set_ne {l : List α} {i j : Nat} (h : i ≠ j) (x d : α) :
    (l.set i x).getD j d = l.getD j d := by
  simp [List.getD_eq_getElem?_getD, List.getElem?_set_ne h]

theorem multiset_set (l : List α) (i : Nat) (x d : α) (h : i < l.length) :
    (↑(l.set i x) : Multiset α) + {l.getD i d} = ↑l + {x} := by
  induction l generalizing i with
  | nil => simp at h
  | cons a t ih =>
      cases i with
      | zero =>
          simp only [List.set_cons_zero, List.getD_cons_zero]
          rw [← Multiset.cons_coe, ← Multiset.cons_coe,
            ← Multiset.singleton_add, ← Multiset.singleton_add]
          abel
      | succ i =>
          simp only [List.set_cons_succ, List.getD_cons_succ]
          rw [← Multiset.cons_coe, ← Multiset.cons_coe,
            Multiset.cons_add, Multiset.cons_add,
            ih i (by simpa using h)]

theorem multiset_set_set (l : List α) (i j : Nat) (x d : α)
    (hi : i < l.length) (hj : j < l.length) (hij : i ≠ j) :
    (↑((l.set i (l.getD j d)).set j x) : Multiset α) = ↑(l.set i x) := by
  have h1 := multiset_set (l.set i (l.getD j d)) j x d (by simpa using hj)
  rw [getD_set_ne hij] at h1
  have h2 := multiset_set l i (l.getD j d) d hi
  have h3 := multiset_set l i x d hi
  have key2 : (↑((l.set i (l.getD j d)).set j x) : Multiset α)
      + ({l.getD j d} + {l.getD i d}) =
      ↑(l.set i x) + ({l.getD j d} + {l.getD i d}) := by
    calc (↑((l.set i (l.getD j d)).set j x) : Multiset α)
        + ({l.getD j d} + {l.getD i d})
        = (↑((l.set i (l.getD j d)).set j x) + {l.getD j d}) + {l.getD i d} := by
          rw [add_assoc]
      _ = (↑(l.set i (l.getD j d)) + {x}) + {l.getD i d} := by rw [h1]
      _ = (↑(l.set i (l.getD j d)) + {l.getD i d}) + {x} := by
          rw [add_assoc, add_assoc, add_comm ({x} : Multiset α)]
      _ = (↑l + {l.getD j d}) + {x} := by rw [h2]
      _ = (↑l + {x}) + {l.getD j d} := by
          rw [add_assoc, add_assoc, add_comm ({x} : Multiset α)]
      _ = (↑(l.set i x) + {l.getD i d}) + {l.getD j d} := by rw [h3]
      _ = ↑(l.set i x) + ({l.getD j d} + {l.getD i d}) := by
          rw [add_assoc, add_comm ({l.getD i d} : Multiset α)]
  exact add_right_cancel key2

theorem siftdownLoop_length (key : α → ℚ) (x : α) (startpos : Nat) :
    ∀ (fuel : Nat) (l : List α) (pos : Nat),
      (siftdownLoop key x startpos fuel l pos).length = l.length := by
  intro fuel
  induction fuel with
  | zero => intro l pos; simp [siftdownLoop]
  | succ fuel ih =>
      intro l pos
      rw [siftdownLoop]
      split_ifs <;> simp [ih]

theorem siftdownLoop_multiset (key : α → ℚ) (x : α) (startpos : Nat) :
    ∀ (fuel : Nat) (l : List α) (pos : Nat), pos < l.length →
      (↑(siftdownLoop key x startpos fuel l pos) : Multiset α) = ↑(l.set pos x) := by
  intro fuel
  induction fuel with
  | zero => intro l pos _; simp [siftdownLoop]
  | succ fuel ih =>
      intro l pos hpos
      rw [siftdownLoop]
      split_ifs with h1 h2
      · have hpp : (pos - 1) / 2 < l.length := by omega
        have hne : (pos - 1) / 2 ≠ pos := by omega
        rw [ih (l.set pos (l.getD ((pos - 1) / 2) default)) ((pos - 1) / 2)
          (by simpa using hpp)]
        exact multiset_set_set l pos ((pos - 1) / 2) x default hpos hpp
          (fun h => hne h.symm)
      · rfl
      · rfl

theorem chooseChild_lt (key : α → ℚ) (endpos : Nat) (l : List α) (pos : Nat)
    (h : 2 * pos + 1 < endpos) :
    2 * pos + 1 ≤ chooseChild key endpos l pos ∧
      chooseChild key endpos l pos < endpos := by
  unfold chooseChild
  split_ifs with h2 <;> omega

theorem siftupLoop_length_pos (key : α → ℚ) (endpos : Nat) :
    ∀ (fuel : Nat) (l : List α) (pos : Nat), pos < l.length → endpos ≤ l.length →
      (siftupLoop key endpos fuel l pos).1.length = l.length ∧
      (siftupLoop key endpos fuel l pos).2 < l.length := by
  intro fuel
  induction fuel with
  | zero => intro l pos hpos _; simpa [siftupLoop] using hpos
  | succ fuel ih =>
      intro l pos hpos hend
      rw [siftupLoop]
      split_ifs with h1
      · have hc := chooseChild_lt key endpos l pos h1
        have := ih (l.set pos (l.getD (chooseChild key endpos l pos) default))
          (chooseChild key endpos l pos) (by simp; omega) (by simpa using hend)
        simpa using this
      · exact ⟨rfl, hpos⟩

theorem siftupLoop_multiset_set (key : α → ℚ) (endpos : Nat) :
    ∀ (fuel : Nat) (l : List α) (pos : Nat) (x : α),
      pos < l.length → endpos ≤ l.length →
      (↑((siftupLoop key endpos fuel l pos).1.set
          (siftupLoop key endpos fuel l pos).2 x) : Multiset α) = ↑(l.set pos x) := by
  intro fuel
  induction fuel with
  | zero => intro l pos x _ _; simp [siftupLoop]
  | succ fuel ih =>
      intro l pos x hpos hend
      rw [siftupLoop]
      split_ifs with h1
      · have hc := chooseChild_lt key endpos l pos h1
        have hclen : chooseChild key endpos l pos < l.length := by omega
        have hcpos : pos ≠ chooseChild key endpos l pos := by omega
        rw [ih (l.set pos (l.getD (chooseChild key endpos l pos) default))
          (chooseChild key endpos l pos) x (by simpa using hclen)
          (by simpa using hend)]
        exact multiset_set_set l pos (chooseChild key endpos l pos) x default
          hpos hclen hcpos
      · rfl

theorem siftup_multiset (key : α → ℚ) (l : List α) (h0 : 0 < l.length) :
    (↑(siftup key l 0) : Multiset α) = ↑l := by
  unfold siftup
  have hlp := siftupLoop_length_pos key l.length l.length l 0 h0 le_rfl
  rw [siftdownLoop_multiset key (l.getD 0 default) 0 _ _ _
    (by rw [List.length_set, hlp.1]; exact hlp.2)]
  rw [List.set_set]
  rw [siftupLoop_multiset_set key l.length l.length l 0 (l.getD 0 default) h0 le_rfl]
  have := multiset_set l 0 (l.getD 0 default) default h0
  exact add_right_cancel this

theorem heappush_multiset (key : α → ℚ) (l : List α) (x : α) :
    (↑(heappush key l x) : Multiset α) = x ::ₘ ↑l := by
  unfold heappush
  rw [siftdownLoop_multiset key x 0 l.length (l ++ [x]) l.length (by simp)]
  have hgd : (l ++ [x]).getD l.length default = x := by
    simp [List.getD_eq_getElem?_getD, List.getElem?_concat_length]
  have := multiset_set (l ++ [x]) l.length x default (by simp)
  rw [hgd] at this
  have h2 := add_right_cancel this
  rw [h2, Multiset.cons_coe]
  exact Multiset.coe_eq_coe.mpr (List.perm_append_singleton x l)

theorem heappop_multiset (key : α → ℚ) (l l' : List α) (x : α)
    (h : heappop key l = some (x, l')) : (↑l : Multiset α) = x ::ₘ ↑l' := by
  match l, h with
  | a :: tl, h =>
    unfold heappop at h
    by_cases htl : (a :: tl).dropLast = []
    · have : tl = [] := by
        cases tl with
        | nil => rfl
        | cons b tb => simp [List.dropLast] at htl
      subst this
      simp at h
      obtain ⟨hx, hl'⟩ := h
      subst hx; subst hl'
      rfl
    · obtain ⟨r0, rtl, hrest⟩ : ∃ r0 rtl, (a :: tl).dropLast = r0 :: rtl := by
        cases hr : (a :: tl).dropLast with
        | nil => exact absurd hr htl
        | cons r0 rtl => exact ⟨r0, rtl, rfl⟩
      rw [hrest] at h
      simp only [Option.some.injEq, Prod.mk.injEq] at h
      obtain ⟨hx, hl'⟩ := h
      have hmul : (↑l' : Multiset α) =
          ↑((r0 :: rtl).set 0 ((a :: tl).getLastD default)) := by
        rw [← hl']
        exact siftup_multiset key _ (by simp)
      have hset := multiset_set (r0 :: rtl) 0
        ((a :: tl).getLastD default) default (by simp)
      have hgd0 : (r0 :: rtl).getD 0 default = r0 := rfl
      rw [hgd0] at hset
      have hlast : (a :: tl).getLastD default = (a :: tl).getLast (by simp) := by
        rw [List.getLastD_eq_getLast?, List.getLast?_eq_getLast _ (by simp)]
        rfl
      have hsplit : (r0 :: rtl) ++ [(a :: tl).getLastD default] = a :: tl := by
        rw [hlast, ← hrest]
        exact List.dropLast_concat_getLast (by simp)
      calc (↑(a :: tl) : Multiset α)
          = ↑((r0 :: rtl) ++ [(a :: tl).getLastD default]) := by rw [hsplit]
        _ = ↑(r0 :: rtl) + ({(a :: tl).getLastD default} : Multiset α) := by
            rw [← Multiset.coe_add, Multiset.coe_singleton]
        _ = ↑((r0 :: rtl).set 0 ((a :: tl).getLastD default)) + {r0} := by
            rw [hset]
        _ = ↑l' + {r0} := by rw [hmul]
        _ = x ::ₘ ↑l' := by rw [← hx, add_comm, Multiset.singleton_add]

theorem getD_append {l l₂ : List α} {k : Nat} (h : k < l.length) (d : α) :
    (l ++ l₂).getD k d = l.getD k d := by
  simp [List.getD_eq_getElem?_getD, List.getElem?_append_left h]

theorem getD_dropLast {l : List α} {k : Nat} (h : k < l.length - 1) (d : α) :
    l.dropLast.getD k d = l.getD k d := by
  simp only [List.getD_eq_getElem?_getD, List.getElem?_dropLast, if_pos h]

/-- The heap shape invariant maintained by `heappush` / `heappop`: every
non-root entry is at least its parent, comparing with `key`
(`Task.__lt__` compares deadlines). -/
def heapInv (key : α → ℚ) (l : List α) : Prop :=
  ∀ i, 0 < i → i < l.length →
    key (l.getD ((i - 1) / 2) default) ≤ key (l.getD i default)

theorem heapInv_nil (key : α → ℚ) : heapInv key ([] : List α) := by
  intro i _ hi
  simp at hi

theorem heapInv_root_le (key : α → ℚ) {l : List α} (h : heapInv key l) :
    ∀ i, i < l.length → key (l.getD 0 default) ≤ key (l.getD i default) := by
  intro i
  induction i using Nat.strong_induction_on with
  | _ i ih =>
    intro hi
    rcases Nat.eq_zero_or_pos i with h0 | h0
    · subst h0; exact le_refl _
    · exact le_trans (ih ((i - 1) / 2) (by omega) (by omega)) (h i h0 hi)

theorem siftdownLoop_heapInv (key : α → ℚ) (x : α) :
    ∀ (fuel : Nat) (l : List α) (pos : Nat),
      pos < l.length → pos ≤ fuel →
      (∀ i, 0 < i → i < l.length → i ≠ pos →
        key ((l.set pos x).getD ((i - 1) / 2) default) ≤
          key ((l.set pos x).getD i default)) →
      (∀ j, j < l.length → (j - 1) / 2 = pos → 0 < pos →
        key ((l.set pos x).getD ((pos - 1) / 2) default) ≤
          key ((l.set pos x).getD j default)) →
      heapInv key (siftdownLoop key x 0 fuel l pos) := by
  intro fuel
  induction fuel with
  | zero =>
      intro l pos hpos hfuel hA _
      have h0 : pos = 0 := by omega
      subst h0
      rw [siftdownLoop]
      intro i hi0 hil
      rw [List.length_set] at hil
      exact hA i hi0 hil (by omega)
  | succ fuel ih =>
      intro l pos hpos hfuel hA hB
      rw [siftdownLoop]
      by_cases hp0 : 0 < pos
      · rw [if_pos hp0]
        by_cases hlt : key x < key (l.getD ((pos - 1) / 2) default)
        · rw [if_pos hlt]
          have hpplen : (pos - 1) / 2 < l.length := by omega
          have hppne : (pos - 1) / 2 ≠ pos := by omega
          apply ih (l.set pos (l.getD ((pos - 1) / 2) default)) ((pos - 1) / 2)
            (by simpa using hpplen) (by omega)
          · -- edges except into the new hole
            intro i hi0 hil hine
            rw [List.length_set] at hil
            have e1 : ((l.set pos (l.getD ((pos - 1) / 2) default)).set
                ((pos - 1) / 2) x).getD ((pos - 1) / 2) default = x :=
              getD_set_self (by simpa using hpplen) _ _
            have e2 : ((l.set pos (l.getD ((pos - 1) / 2) default)).set
                ((pos - 1) / 2) x).getD pos default
                = l.getD ((pos - 1) / 2) default := by
              rw [getD_set_ne hppne, getD_set_self hpos]
            have e3 : ∀ k, k ≠ pos → k ≠ (pos - 1) / 2 →
                ((l.set pos (l.getD ((pos - 1) / 2) default)).set
                  ((pos - 1) / 2) x).getD k default = l.getD k default := by
              intro k h1 h2
              rw [getD_set_ne (fun h => h2 h.symm), getD_set_ne (fun h => h1 h.symm)]
            have v1 : (l.set pos x).getD pos default = x := getD_set_self hpos _ _
            have v3 : ∀ k, k ≠ pos → (l.set pos x).getD k default = l.getD k default :=
              fun k hk => getD_set_ne (fun h => hk h.symm) _ _
            by_cases hip : i = pos
            · subst hip
              rw [e2, show (i - 1) / 2 = (i - 1) / 2 from rfl, e1]
              exact le_of_lt hlt
            · by_cases hpi : (i - 1) / 2 = pos
              · rw [hpi, e2, e3 i hip (by omega)]
                have := hB i hil hpi hp0
                rw [v3 ((pos - 1) / 2) hppne, v3 i hip] at this
                exact this
              · by_cases hppi : (i - 1) / 2 = (pos - 1) / 2
                · rw [hppi, e1, e3 i hip (by omega)]
                  have := hA i hi0 hil hip
                  rw [v3 ((i - 1) / 2) (by omega), v3 i hip, hppi] at this
                  exact le_trans (le_of_lt hlt) this
                · rw [e3 i hip (by omega), e3 ((i - 1) / 2) hpi hppi]
                  have := hA i hi0 hil hip
                  rw [v3 ((i - 1) / 2) hpi, v3 i hip] at this
                  exact this
          · -- grandparent property across the new hole
            intro j hjl hpj hpp0
            rw [List.length_set] at hjl
            have hgp : ((pos - 1) / 2 - 1) / 2 < (pos - 1) / 2 := by omega
            have e2 : ((l.set pos (l.getD ((pos - 1) / 2) default)).set
                ((pos - 1) / 2) x).getD pos default
                = l.getD ((pos - 1) / 2) default := by
              rw [getD_set_ne hppne, getD_set_self hpos]
            have e3 : ∀ k, k ≠ pos → k ≠ (pos - 1) / 2 →
                ((l.set pos (l.getD ((pos - 1) / 2) default)).set
                  ((pos - 1) / 2) x).getD k default = l.getD k default := by
              intro k h1 h2
              rw [getD_set_ne (fun h => h2 h.symm), getD_set_ne (fun h => h1 h.symm)]
            have v3 : ∀ k, k ≠ pos → (l.set pos x).getD k default = l.getD k default :=
              fun k hk => getD_set_ne (fun h => hk h.symm) _ _
            rw [e3 (((pos - 1) / 2 - 1) / 2) (by omega) (by omega)]
            by_cases hjp : j = pos
            · rw [hjp, e2]
              have := hA ((pos - 1) / 2) hpp0 hpplen hppne
              rw [v3 (((pos - 1) / 2 - 1) / 2) (by omega),
                v3 ((pos - 1) / 2) hppne] at this
              exact this
            · have hjgt : (pos - 1) / 2 < j := by omega
              rw [e3 j hjp (by omega)]
              have h1 := hA ((pos - 1) / 2) hpp0 hpplen hppne
              rw [v3 (((pos - 1) / 2 - 1) / 2) (by omega),
                v3 ((pos - 1) / 2) hppne] at h1
              have h2 := hA j (by omega) hjl hjp
              rw [v3 ((j - 1) / 2) (by omega), v3 j hjp, hpj] at h2
              exact le_trans h1 h2
        · rw [if_neg hlt]
          intro i hi0 hil
          rw [List.length_set] at hil
          by_cases hip : i = pos
          · subst hip
            rw [getD_set_self hpos, getD_set_ne (by omega)]
            exact le_trans (not_lt.mp hlt) (le_refl _)
          · exact hA i hi0 hil hip
      · rw [if_neg hp0]
        intro i hi0 hil
        rw [List.length_set] at hil
        exact hA i hi0 hil (by omega)

theorem chooseChild_parent (key : α → ℚ) (endpos : Nat) (l : List α) (pos : Nat)
    (h : 2 * pos + 1 < endpos) :
    (chooseChild key endpos l pos - 1) / 2 = pos := by
  obtain ⟨hlb, hub⟩ := chooseChild_lt key endpos l pos h
  have hub2 : chooseChild key endpos l pos ≤ 2 * pos + 2 := by
    unfold chooseChild
    split_ifs <;> omega
  omega

theorem chooseChild_min (key : α → ℚ) (endpos : Nat) (l : List α) (pos : Nat)
    (h : 2 * pos + 1 < endpos) :
    ∀ j, 0 < j → j < endpos → (j - 1) / 2 = pos →
      j ≠ chooseChild key endpos l pos →
      key (l.getD (chooseChild key endpos l pos) default) ≤
        key (l.getD j default) := by
  intro j hj0 hj hpj hne
  have hjr : j = 2 * pos + 1 ∨ j = 2 * pos + 2 := by omega
  by_cases hcond : 2 * pos + 2 < endpos ∧
      ¬ key (l.getD (2 * pos + 1) default) < key (l.getD (2 * pos + 2) default)
  · have hcc : chooseChild key endpos l pos = 2 * pos + 2 := by
      unfold chooseChild
      rw [if_pos hcond]
    rw [hcc] at hne ⊢
    rcases hjr with rfl | rfl
    · exact not_lt.mp hcond.2
    · omega
  · have hcc : chooseChild key endpos l pos = 2 * pos + 1 := by
      unfold chooseChild
      rw [if_neg hcond]
    rw [hcc] at hne ⊢
    rcases hjr with rfl | rfl
    · omega
    · rw [not_and_or, not_not] at hcond
      rcases hcond with hc | hc
      · omega
      · exact le_of_lt hc

theorem siftupLoop_inv (key : α → ℚ) :
    ∀ (fuel : Nat) (l : List α) (pos : Nat),
      pos < l.length → l.length - pos ≤ fuel →
      (∀ i, 0 < i → i < l.length → i ≠ pos → (i - 1) / 2 ≠ pos →
        key (l.getD ((i - 1) / 2) default) ≤ key (l.getD i default)) →
      (∀ j, j < l.length → (j - 1) / 2 = pos → 0 < pos →
        key (l.getD ((pos - 1) / 2) default) ≤ key (l.getD j default)) →
      (siftupLoop key l.length fuel l pos).1.length = l.length ∧
      (siftupLoop key l.length fuel l pos).2 < l.length ∧
      l.length ≤ 2 * (siftupLoop key l.length fuel l pos).2 + 1 ∧
      (∀ i, 0 < i → i < l.length →
        i ≠ (siftupLoop key l.length fuel l pos).2 →
        (i - 1) / 2 ≠ (siftupLoop key l.length fuel l pos).2 →
        key ((siftupLoop key l.length fuel l pos).1.getD ((i - 1) / 2) default) ≤
          key ((siftupLoop key l.length fuel l pos).1.getD i default)) := by
  intro fuel
  induction fuel with
  | zero =>
      intro l pos hpos hfuel _ _
      omega
  | succ fuel ih =>
      intro l pos hpos hfuel hA hB
      rw [siftupLoop]
      by_cases hchild : 2 * pos + 1 < l.length
      · rw [if_pos hchild]
        have hcc := chooseChild_lt key l.length l pos hchild
        have hcp := chooseChild_parent key l.length l pos hchild
        have hclen : chooseChild key l.length l pos < l.length := hcc.2
        have hcgt : pos < chooseChild key l.length l pos := by omega
        have hlen' : (l.set pos
            (l.getD (chooseChild key l.length l pos) default)).length = l.length := by
          simp
        have e0 : ∀ k, k ≠ pos →
            (l.set pos (l.getD (chooseChild key l.length l pos) default)).getD
              k default = l.getD k default :=
          fun k hk => getD_set_ne (fun h => hk h.symm) _ _
        have epos : (l.set pos
            (l.getD (chooseChild key l.length l pos) default)).getD pos default
            = l.getD (chooseChild key l.length l pos) default :=
          getD_set_self hpos _ _
        have hA' : ∀ i, 0 < i →
            i < (l.set pos (l.getD (chooseChild key l.length l pos) default)).length →
            i ≠ chooseChild key l.length l pos →
            (i - 1) / 2 ≠ chooseChild key l.length l pos →
            key ((l.set pos (l.getD (chooseChild key l.length l pos) default)).getD
              ((i - 1) / 2) default) ≤
            key ((l.set pos (l.getD (chooseChild key l.length l pos) default)).getD
              i default) := by
          intro i hi0 hil hic hipc
          rw [hlen'] at hil
          by_cases hip : i = pos
          · have hppos : 0 < pos := by omega
            rw [hip, epos, e0 ((pos - 1) / 2) (by omega)]
            exact hB (chooseChild key l.length l pos) hclen hcp hppos
          · by_cases hpi : (i - 1) / 2 = pos
            · rw [hpi, epos, e0 i hip]
              exact chooseChild_min key l.length l pos hchild i hi0 hil hpi hic
            · rw [e0 i hip, e0 ((i - 1) / 2) hpi]
              exact hA i hi0 hil hip hpi
        have hB' : ∀ j,
            j < (l.set pos (l.getD (chooseChild key l.length l pos) default)).length →
            (j - 1) / 2 = chooseChild key l.length l pos →
            0 < chooseChild key l.length l pos →
            key ((l.set pos (l.getD (chooseChild key l.length l pos) default)).getD
              ((chooseChild key l.length l pos - 1) / 2) default) ≤
            key ((l.set pos (l.getD (chooseChild key l.length l pos) default)).getD
              j default) := by
          intro j hjl hpj _
          rw [hlen'] at hjl
          rw [hcp, epos, e0 j (by omega)]
          rw [← hpj]
          exact hA j (by omega) hjl (by omega) (by omega)
        have := ih (l.set pos (l.getD (chooseChild key l.length l pos) default))
          (chooseChild key l.length l pos)
          (by rw [hlen']; exact hclen) (by rw [hlen']; omega)
          (by rw [hlen']; exact fun i a b c d => hA' i a (by rw [hlen']; exact b) c d)
          (by rw [hlen']; exact fun j a b c => hB' j (by rw [hlen']; exact a) b c)
        rw [hlen'] at this
        exact this
      · rw [if_neg hchild]
        exact ⟨rfl, hpos, by omega, fun i a b c d => hA i a b c d⟩

theorem siftup_heapInv (key : α → ℚ) (l : List α) (h0 : 0 < l.length)
    (hA : ∀ i, 0 < i → i < l.length → i ≠ 0 → (i - 1) / 2 ≠ 0 →
      key (l.getD ((i - 1) / 2) default) ≤ key (l.getD i default)) :
    heapInv key (siftup key l 0) := by
  unfold siftup
  have hsu := siftupLoop_inv key l.length l 0 h0 (by omega) hA
    (by intro j _ _ h; omega)
  obtain ⟨hlen, hp2, hleaf, hA'⟩ := hsu
  apply siftdownLoop_heapInv key (l.getD 0 default) _ _ _
    (by rw [List.length_set, hlen]; exact hp2) le_rfl
  · intro i hi0 hil hine
    rw [List.length_set, hlen] at hil
    have hpar : (i - 1) / 2 ≠ (siftupLoop key l.length l.length l 0).2 := by
      omega
    rw [List.set_set, getD_set_ne (fun h => hine h.symm),
      getD_set_ne (fun h => hpar h.symm)]
    have := hA' i hi0 (by omega) hine hpar
    exact this
  · intro j hjl hpj hpos2
    rw [List.length_set, hlen] at hjl
    omega

theorem heappush_heapInv (key : α → ℚ) (l : List α) (x : α)
    (h : heapInv key l) : heapInv key (heappush key l x) := by
  unfold heappush
  apply siftdownLoop_heapInv key x _ _ _ (by simp) le_rfl
  · intro i hi0 hil hine
    rw [List.length_append] at hil
    have hi : i < l.length := by simp at hil; omega
    have hpar : (i - 1) / 2 < l.length := by omega
    rw [getD_set_ne (by omega), getD_set_ne (by omega),
      getD_append hpar, getD_append hi]
    exact h i hi0 hi
  · intro j hjl hpj hpos
    rw [List.length_append] at hjl
    simp at hjl
    omega

theorem heappop_heapInv (key : α → ℚ) {l l' : List α} {x : α}
    (hInv : heapInv key l) (h : heappop key l = some (x, l')) :
    heapInv key l' := by
  match l, h with
  | a :: tl, h =>
    unfold heappop at h
    cases hrest : (a :: tl).dropLast with
    | nil =>
        rw [hrest] at h
        simp only [Option.some.injEq, Prod.mk.injEq] at h
        rw [← h.2]
        exact heapInv_nil key
    | cons r0 rtl =>
        rw [hrest] at h
        simp only [Option.some.injEq, Prod.mk.injEq] at h
        rw [← h.2]
        apply siftup_heapInv key _ (by simp)
        intro i hi0 hil hine hpar
        rw [List.length_set] at hil
        have hlen : (r0 :: rtl).length = (a :: tl).length - 1 := by
          rw [← hrest]; simp
        rw [getD_set_ne (fun hh => hpar hh.symm), getD_set_ne (fun hh => hine hh.symm),
          ← hrest, getD_dropLast (by omega), getD_dropLast (by omega)]
        exact hInv i hi0 (by omega)

theorem heappop_fst (key : α → ℚ) {l l' : List α} {x : α}
    (h : heappop key l = some (x, l')) : x = l.getD 0 default := by
  match l, h with
  | a :: tl, h =>
    unfold heappop at h
    cases hrest : (a :: tl).dropLast with
    | nil =>
        rw [hrest] at h
        simp only [Option.some.injEq, Prod.mk.injEq] at h
        have htl : tl = [] := by
          cases tl with
          | nil => rfl
          | cons b tb => simp at hrest
        subst htl
        rw [← h.1]
        rfl
    | cons r0 rtl =>
        rw [hrest] at h
        simp only [Option.some.injEq, Prod.mk.injEq] at h
        have htl : tl ≠ [] := by
          intro hh
          subst hh
          simp at hrest
        have : (a :: tl).dropLast = a :: tl.dropLast :=
          List.dropLast_cons_of_ne_nil htl
        rw [this] at hrest
        rw [← h.1, (List.cons.injEq _ _ _ _).mp hrest |>.1]
        rfl

theorem heappop_length (key : α → ℚ) {l l' : List α} {x : α}
    (h : heappop key l = some (x, l')) : l.length = l'.length + 1 := by
  have hm := heappop_multiset key l l' x h
  have := congrArg Multiset.card hm
  simpa using this

theorem mem_of_mem_heappop (key : α → ℚ) {l l' : List α} {x y : α}
    (h : heappop key l = some (x, l')) (hy : y ∈ l') : y ∈ l := by
  have hm := heappop_multiset key l l' x h
  have : y ∈ (↑l : Multiset α) := by
    rw [hm]
    exact Multiset.mem_cons_of_mem (by exact Multiset.mem_coe.mpr hy)
  exact Multiset.mem_coe.mp this

theorem heappop_min (key : α → ℚ) {l l' : List α} {x : α}
    (hInv : heapInv key l) (h : heappop key l = some (x, l')) :
    ∀ y ∈ l, key x ≤ key y := by
  intro y hy
  obtain ⟨i, hi, hEq⟩ := List.getElem_of_mem hy
  have hgd : l.getD i default = y := by
    simp [List.getD_eq_getElem?_getD, List.getElem?_eq_getElem hi, hEq]
  rw [heappop_fst key h, ← hgd]
  exact heapInv_root_le key hInv i hi

theorem mem_heappush (key : α → ℚ) {l : List α} {x y : α}
    (hy : y ∈ heappush key l x) : y = x ∨ y ∈ l := by
  have hm := heappush_multiset key l x
  have : y ∈ (x ::ₘ (↑l : Multiset α)) := by
    rw [← hm]
    exact Multiset.mem_coe.mpr hy
  rcases Multiset.mem_cons.mp this with h | h
  · exact Or.inl h
  · exact Or.inr (Multiset.mem_coe.mp h)

end HeapLemmas

/-! ## Cancellation claims (C2, C3) -/

theorem taskCancel_tasks (s : Sched) (i : Nat) :
    (taskCancel s i).tasks = s.tasks := by
  unfold taskCancel
  split_ifs <;> rfl

theorem taskCancel_idem (s : Sched) (i : Nat) :
    taskCancel (taskCancel s i) i = taskCancel s i := by
  by_cases h : i ∈ s.canceled
  · simp [taskCancel, h]
  · simp [taskCancel, h]

/-- C2 counterexample: canceling a task that has already completed
raises `KeyError`, because `Scheduler.run` deleted its registry entry
(line 75) and `Scheduler.cancel` does an unguarded `self.tasks[coro]`
lookup (line 45).  Here the single task `0` runs to completion, after
which `cancel` errors instead of being a no-op. -/
theorem cancel_completed_counterexample :
    Sched.cancel (run 2 (run_soon initSched [(0, Coro.act 0 Coro.done)])) 0
      = .error () := by
  rfl

/-- C2 (amended): `Task.cancel` merely sets the shared `is_canceled`
flag, so canceling a task that is still registered (pending, including
canceled-but-not-yet-discarded and never-run tasks) succeeds and is
idempotent — `Scheduler.cancel` twice equals once.  But when the
coroutine has no registry entry (it completed, or was discarded after
cancellation), `Scheduler.cancel` raises `KeyError` rather than being a
no-op. -/
theorem cancel_idempotent_or_keyerror :
    (∀ (s : Sched) (i : Nat), dictMem s.tasks i = true →
      Sched.cancel s i = .ok (taskCancel s i) ∧
      (Sched.cancel s i).bind (fun s2 => Sched.cancel s2 i) = Sched.cancel s i) ∧
    (∀ (s : Sched) (i : Nat), dictMem s.tasks i = false →
      Sched.cancel s i = .error ()) := by
  constructor
  · intro s i h
    have h1 : Sched.cancel s i = .ok (taskCancel s i) := by simp [Sched.cancel, h]
    refine ⟨h1, ?_⟩
    rw [h1]
    show Sched.cancel (taskCancel s i) i = Except.ok (taskCancel s i)
    simp [Sched.cancel, taskCancel_tasks, h, taskCancel_idem]
  · intro s i h
    simp [Sched.cancel, h]

theorem cancel_idempotent_or_keyerror_witness :
    (Sched.cancel (run_soon initSched [(7, Coro.done)]) 7 =
      .ok (taskCancel (run_soon initSched [(7, Coro.done)]) 7)) ∧
    Sched.cancel initSched 7 = .error () :=
  ⟨(cancel_idempotent_or_keyerror.1 (run_soon initSched [(7, Coro.done)]) 7 rfl).1,
   cancel_idempotent_or_keyerror.2 initSched 7 rfl⟩

theorem afterResume_canceled (s : Sched) (cur : STask) (o : Outcome) :
    (afterResume s cur o).canceled = s.canceled := by
  cases o <;> rfl

theorem afterPop_canceled (s : Sched) (cur : STask) :
    (afterPop s cur).canceled = s.canceled := by
  unfold afterPop
  split_ifs with h
  · rfl
  · rw [afterResume_canceled]

theorem runIterPop_canceled (s : Sched) (o : Option (STask × List STask)) :
    (runIterPop s o).canceled = s.canceled := by
  cases o with
  | none => rfl
  | some p => exact afterPop_canceled _ _

theorem runIterPick_canceled (s : Sched) (p : List STask × List STask) :
    (runIterPick s p).canceled = s.canceled := by
  rcases p with ⟨r1, sl1⟩
  cases r1 with
  | cons cur rest => exact afterPop_canceled _ _
  | nil => exact runIterPop_canceled _ _

theorem runIter_canceled (s : Sched) : (runIter s).canceled = s.canceled := by
  unfold runIter
  exact runIterPick_canceled _ _

theorem afterResume_log (s : Sched) (cur : STask) (o : Outcome) :
    (afterResume s cur o).log = s.log := by
  cases o <;> rfl

theorem afterPop_log_canceled (s2 s : Sched) (cur : STask) (e : Ev)
    (hlog : s2.log = s.log) (hcan : s2.canceled = s.canceled)
    (hee : e ∈ (afterPop s2 cur).log) (hc : e.tid ∈ s.canceled) : e ∈ s.log := by
  unfold afterPop at hee
  split_ifs at hee with hcc
  · rw [hlog] at hee; exact hee
  · rw [afterResume_log] at hee
    simp only [hlog] at hee
    rcases List.mem_append.mp hee with h1 | h1
    · exact h1
    · exfalso
      rcases List.mem_cons.mp h1 with h2 | h2
      · rw [h2] at hc
        simp only [Ev.tid] at hc
        rw [hcan] at hcc
        exact hcc hc
      · obtain ⟨a, _, ha⟩ := List.mem_map.mp h2
        rw [← ha] at hc
        simp only [Ev.tid] at hc
        rw [hcan] at hcc
        exact hcc hc

theorem runIter_log_canceled (s : Sched) (e : Ev)
    (he : e ∈ (runIter s).log) (hc : e.tid ∈ s.canceled) : e ∈ s.log := by
  unfold runIter at he
  rcases hm : moveExpired s.now s.sleeping.length s.ready s.sleeping with ⟨r1, sl1⟩
  rw [hm] at he
  cases r1 with
  | cons cur rest =>
      rw [runIterPick] at he
      exact afterPop_log_canceled { s with ready := rest, sleeping := sl1 }
        s cur e rfl rfl he hc
  | nil =>
      rw [runIterPick] at he
      cases hp : heappop taskKey sl1 with
      | none => rw [hp, runIterPop] at he; exact he
      | some p =>
          rw [hp] at he
          rcases p with ⟨cur, rest⟩
          rw [runIterPop] at he
          exact afterPop_log_canceled
            { s with now := cur.deadline, ready := [], sleeping := rest }
            s cur e rfl rfl he hc

theorem run_log_canceled :
    ∀ (fuel : Nat) (s : Sched) (i : Nat), i ∈ s.canceled →
      ∀ e ∈ (run fuel s).log, e.tid = i → e ∈ s.log := by
  intro fuel
  induction fuel with
  | zero => intro s i _ e he _; exact he
  | succ fuel ih =>
      intro s i hi e he htid
      rw [run] at he
      split_ifs at he with hemp
      · exact he
      · have hc : i ∈ (runIter s).canceled := by
          rw [runIter_canceled]; exact hi
        have := ih (runIter s) i hc e he htid
        exact runIter_log_canceled s e this (by rw [htid]; exact hi)

/-- C3: once `cancel` has been called on a pending task, its body never
executes again: no log event for that task id is ever added by the run
loop from that point on, and when the scheduler pops the canceled task
(from either queue, via the expiry loop or directly) it only deletes the
registry entry — it is discarded without `coro.send`, without logging,
and without being requeued. -/
theorem canceled_never_executes :
    (∀ (fuel : Nat) (s : Sched) (i : Nat), i ∈ s.canceled →
      ∀ e ∈ (run fuel s).log, e.tid = i → e ∈ s.log) ∧
    (∀ (s : Sched) (cur : STask), cur.tid ∈ s.canceled →
      afterPop s cur = { s with tasks := dictDel s.tasks cur.tid }) := by
  refine ⟨run_log_canceled, fun s cur h => ?_⟩
  unfold afterPop
  rw [if_pos h]

theorem canceled_never_executes_witness :
    (Ev.acted 5 9 0 ∈
      (⟨0, [⟨5, Coro.act 9 Coro.done, 0⟩], [], [(5, ⟨5, Coro.act 9 Coro.done, 0⟩)],
        [5], [Ev.acted 5 9 0]⟩ : Sched).log) ∧
    afterPop (⟨0, [], [], [(5, ⟨5, Coro.act 9 Coro.done, 0⟩)], [5], []⟩ : Sched)
        ⟨5, Coro.act 9 Coro.done, 0⟩ =
      (⟨0, [], [], [], [5], []⟩ : Sched) := by
  constructor
  · exact canceled_never_executes.1 3
      ⟨0, [⟨5, Coro.act 9 Coro.done, 0⟩], [], [(5, ⟨5, Coro.act 9 Coro.done, 0⟩)],
        [5], [Ev.acted 5 9 0]⟩ 5 (by decide) (Ev.acted 5 9 0) (by decide) rfl
  · exact (canceled_never_executes.2
      ⟨0, [], [], [(5, ⟨5, Coro.act 9 Coro.done, 0⟩)], [5], []⟩
      ⟨5, Coro.act 9 Coro.done, 0⟩ (by decide)).trans (by rfl)

/-! ## Registry invariant (C4) -/

/-- The spec's TaskRegistry invariant: every registry entry is keyed by
the id of the task it holds, keys are unique (each pending task has
exactly one entry), and the tasks present in the ReadyQueue or the
TimerHeap are, as a multiset, exactly the registry's values (each queued
task has an entry, and every entry's task is queued). -/
def registryInv (s : Sched) : Prop :=
  (∀ p ∈ s.tasks, p.1 = p.2.tid) ∧
  (s.tasks.map Prod.fst).Nodup ∧
  (↑(s.ready ++ s.sleeping) : Multiset STask) = ↑(s.tasks.map Prod.snd)

theorem dictMem_iff {d : List (Nat × STask)} {k : Nat} :
    dictMem d k = true ↔ k ∈ d.map Prod.fst := by
  unfold dictMem
  rw [List.any_eq_true]
  constructor
  · rintro ⟨p, hp, hpk⟩
    exact List.mem_map.mpr ⟨p, hp, beq_iff_eq.mp hpk⟩
  · intro h
    obtain ⟨p, hp, hpk⟩ := List.mem_map.mp h
    exact ⟨p, hp, beq_iff_eq.mpr hpk⟩

theorem dict_single {d : List (Nat × STask)} {k : Nat}
    (hnd : (d.map Prod.fst).Nodup) (hmem : dictMem d k = true) :
    ∃ v, d.filter (fun p => p.1 == k) = [(k, v)] := by
  induction d with
  | nil => simp [dictMem] at hmem
  | cons a tl ih =>
      by_cases hak : a.1 = k
      · refine ⟨a.2, ?_⟩
        have htl : tl.filter (fun p => p.1 == k) = [] := by
          rw [List.filter_eq_nil_iff]
          intro p hp hpk
          have : p.1 ∈ tl.map Prod.fst := List.mem_map.mpr ⟨p, hp, rfl⟩
          rw [beq_iff_eq] at hpk
          rw [List.map_cons, List.nodup_cons] at hnd
          exact hnd.1 (by rw [hak, ← hpk]; exact this)
        rw [List.filter_cons, if_pos (by simp [hak]), htl]
        have : a = (k, a.2) := by
          rcases a with ⟨a1, a2⟩
          simp at hak
          rw [hak]
        rw [← this]
      · rw [List.filter_cons, if_neg (by simp [hak])]
        apply ih
        · rw [List.map_cons, List.nodup_cons] at hnd
          exact hnd.2
        · rcases List.any_eq_true.mp hmem with ⟨p, hp, hpk⟩
          rcases List.mem_cons.mp hp with rfl | hp2
          · exact absurd (beq_iff_eq.mp hpk) hak
          · exact List.any_eq_true.mpr ⟨p, hp2, hpk⟩

theorem dictDel_filter (d : List (Nat × STask)) (k : Nat) :
    dictDel d k = d.filter (fun p => !(p.1 == k)) := rfl

theorem dictDel_multiset {d : List (Nat × STask)} {k : Nat} {v : STask}
    (hfil : d.filter (fun p => p.1 == k) = [(k, v)]) :
    (↑(d.map Prod.snd) : Multiset STask) =
      v ::ₘ ↑((dictDel d k).map Prod.snd) := by
  have hperm := List.filter_append_perm (fun p => p.1 == k) d
  rw [hfil] at hperm
  have hperm2 := hperm.map Prod.snd
  rw [List.map_append] at hperm2
  have : ([(k, v)].map Prod.snd) ++ ((d.filter fun p => !(p.1 == k)).map Prod.snd)
      = v :: ((dictDel d k).map Prod.snd) := by
    rw [dictDel_filter]
    rfl
  rw [this] at hperm2
  rw [← Multiset.coe_eq_coe.mpr hperm2, Multiset.cons_coe]

theorem dictDel_sublist (d : List (Nat × STask)) (k : Nat) :
    (dictDel d k).Sublist d := List.filter_sublist d

theorem dictDel_nodup {d : List (Nat × STask)} {k : Nat}
    (hnd : (d.map Prod.fst).Nodup) : ((dictDel d k).map Prod.fst).Nodup :=
  hnd.sublist ((dictDel_sublist d k).map Prod.fst)

theorem dictDel_wf {d : List (Nat × STask)} {k : Nat}
    (hwf : ∀ p ∈ d, p.1 = p.2.tid) : ∀ p ∈ dictDel d k, p.1 = p.2.tid :=
  fun p hp => hwf p ((dictDel_sublist d k).mem hp)

theorem dictDel_not_mem (d : List (Nat × STask)) (k : Nat) :
    dictMem (dictDel d k) k = false := by
  rw [Bool.eq_false_iff]
  intro h
  obtain ⟨p, hp, hpk⟩ := List.any_eq_true.mp h
  rw [dictDel_filter] at hp
  have := (List.mem_filter.mp hp).2
  rw [beq_iff_eq] at hpk
  simp [hpk] at this

theorem dictSet_fresh {d : List (Nat × STask)} {k : Nat} (v : STask)
    (h : dictMem d k = false) : dictSet d k v = d ++ [(k, v)] := by
  unfold dictSet
  rw [h]
  rfl

theorem dictMem_append (d : List (Nat × STask)) (k i : Nat) (v : STask) :
    dictMem (d ++ [(i, v)]) k = (dictMem d k || (i == k)) := by
  simp [dictMem, List.any_append]

theorem moveExpired_multiset (now : ℚ) :
    ∀ (fuel : Nat) (r sl : List STask),
      (↑((moveExpired now fuel r sl).1 ++ (moveExpired now fuel r sl).2)
        : Multiset STask) = ↑(r ++ sl) := by
  intro fuel
  induction fuel with
  | zero => intro r sl; rw [show moveExpired now 0 r sl = (r, sl) from rfl]
  | succ fuel ih =>
      intro r sl
      cases sl with
      | nil => rfl
      | cons s0 stl =>
          rw [show moveExpired now (fuel + 1) r (s0 :: stl)
              = if s0.deadline ≤ now then
                  (match heappop taskKey (s0 :: stl) with
                   | none => (r, s0 :: stl)
                   | some (t, rest) => moveExpired now fuel (r ++ [t]) rest)
                else (r, s0 :: stl) from rfl]
          split_ifs with hdl
          · cases hp : heappop taskKey (s0 :: stl) with
            | none => rfl
            | some p =>
                rcases p with ⟨t, rest⟩
                rw [ih (r ++ [t]) rest]
                have hm := heappop_multiset taskKey (s0 :: stl) rest t hp
                rw [← Multiset.coe_add, ← Multiset.coe_add, ← Multiset.coe_add,
                  hm, Multiset.coe_singleton, ← Multiset.singleton_add]
                abel
          · rfl

theorem afterPop_registryInv (s : Sched) (cur : STask)
    (hwf : ∀ p ∈ s.tasks, p.1 = p.2.tid)
    (hnd : (s.tasks.map Prod.fst).Nodup)
    (hval : (↑(s.tasks.map Prod.snd) : Multiset STask) =
      cur ::ₘ ↑(s.ready ++ s.sleeping)) :
    registryInv (afterPop s cur) := by
  have hcurmem : cur ∈ s.tasks.map Prod.snd := by
    rw [← Multiset.mem_coe, hval]
    exact Multiset.mem_cons_self _ _
  obtain ⟨p, hp, hp2⟩ := List.mem_map.mp hcurmem
  have hpk : p.1 = cur.tid := by rw [hwf p hp, hp2]
  have hmem : dictMem s.tasks cur.tid = true :=
    dictMem_iff.mpr (List.mem_map.mpr ⟨p, hp, hpk⟩)
  obtain ⟨v, hfil⟩ := dict_single hnd hmem
  have hpv : p = (cur.tid, v) := by
    have hpf : p ∈ s.tasks.filter (fun q => q.1 == cur.tid) :=
      List.mem_filter.mpr ⟨hp, by simp [hpk]⟩
    rw [hfil] at hpf
    simpa using hpf
  have hv : v = cur := by
    rw [hpv] at hp2
    exact hp2
  rw [hv] at hfil
  have hdel := dictDel_multiset hfil
  have hqueues : (↑(s.ready ++ s.sleeping) : Multiset STask) =
      ↑((dictDel s.tasks cur.tid).map Prod.snd) := by
    have := hval.symm.trans hdel
    exact (Multiset.cons_inj_right cur).mp this
  unfold afterPop
  split_ifs with hc
  · exact ⟨dictDel_wf hwf, dictDel_nodup hnd, hqueues⟩
  · cases ho : (cur.coro.resume).2 with
    | completed =>
        rw [afterResume]
        exact ⟨dictDel_wf hwf, dictDel_nodup hnd, hqueues⟩
    | slept d k =>
        rw [afterResume]
        rw [dictSet_fresh _ (dictDel_not_mem _ _)]
        refine ⟨?_, ?_, ?_⟩
        · intro q hq
          rcases List.mem_append.mp hq with h1 | h1
          · exact dictDel_wf hwf q h1
          · rw [List.mem_singleton.mp h1]
        · rw [List.map_append, List.nodup_append]
          refine ⟨dictDel_nodup hnd, by simp, ?_⟩
          intro a ha hb
          simp only [List.map_cons, List.map_nil, List.mem_singleton] at hb
          rw [hb] at ha
          exact absurd (dictMem_iff.mpr ha)
            (by rw [dictDel_not_mem]; exact fun h => Bool.false_ne_true h)
        · rw [List.map_append, ← Multiset.coe_add, ← Multiset.coe_add,
            heappush_multiset, ← hqueues, ← Multiset.coe_add]
          simp only [List.map_cons, List.map_nil, Multiset.coe_singleton]
          rw [← Multiset.singleton_add]
          abel
    | yielded k =>
        rw [afterResume]
        rw [dictSet_fresh _ (dictDel_not_mem _ _)]
        refine ⟨?_, ?_, ?_⟩
        · intro q hq
          rcases List.mem_append.mp hq with h1 | h1
          · exact dictDel_wf hwf q h1
          · rw [List.mem_singleton.mp h1]
        · rw [List.map_append, List.nodup_append]
          refine ⟨dictDel_nodup hnd, by simp, ?_⟩
          intro a ha hb
          simp only [List.map_cons, List.map_nil, List.mem_singleton] at hb
          rw [hb] at ha
          exact absurd (dictMem_iff.mpr ha)
            (by rw [dictDel_not_mem]; exact fun h => Bool.false_ne_true h)
        · rw [← Multiset.coe_add, ← Multiset.coe_add, List.map_append,
            ← Multiset.coe_add, ← hqueues, ← Multiset.coe_add]
          simp only [List.map_cons, List.map_nil, Multiset.coe_singleton]
          abel

theorem runIter_registryInv (s : Sched) (h : registryInv s) :
    registryInv (runIter s) := by
  obtain ⟨hwf, hnd, hval⟩ := h
  unfold runIter
  rcases hm : moveExpired s.now s.sleeping.length s.ready s.sleeping with ⟨r1, sl1⟩
  have hmul : (↑(r1 ++ sl1) : Multiset STask) = ↑(s.ready ++ s.sleeping) := by
    have := moveExpired_multiset s.now s.sleeping.length s.ready s.sleeping
    rw [hm] at this
    exact this
  cases r1 with
  | cons cur rest =>
      rw [runIterPick]
      apply afterPop_registryInv { s with ready := rest, sleeping := sl1 } cur
        hwf hnd
      show (↑(s.tasks.map Prod.snd) : Multiset STask) = cur ::ₘ ↑(rest ++ sl1)
      rw [← hval, ← hmul, List.cons_append, ← Multiset.cons_coe]
  | nil =>
      rw [runIterPick]
      cases hp : heappop taskKey sl1 with
      | none =>
          rw [runIterPop]
          refine ⟨hwf, hnd, ?_⟩
          show (↑(([] : List STask) ++ sl1) : Multiset STask) = ↑(s.tasks.map Prod.snd)
          rw [← hval, ← hmul]
      | some p =>
          rcases p with ⟨cur, rest⟩
          rw [runIterPop]
          apply afterPop_registryInv
            { s with ready := [], sleeping := rest, now := cur.deadline } cur
            hwf hnd
          show (↑(s.tasks.map Prod.snd) : Multiset STask)
            = cur ::ₘ ↑(([] : List STask) ++ rest)
          rw [← hval, ← hmul, List.nil_append, List.nil_append]
          exact heappop_multiset taskKey sl1 rest cur hp

theorem run_soon_registryInv :
    ∀ (coros : List (Nat × Coro)) (s : Sched), registryInv s →
      (coros.map Prod.fst).Nodup →
      (∀ ic ∈ coros, dictMem s.tasks ic.1 = false) →
      registryInv (run_soon s coros) := by
  intro coros
  induction coros with
  | nil => intro s h _ _; exact h
  | cons ic tl ih =>
      intro s h hnd hfresh
      obtain ⟨hwf, hnd2, hval⟩ := h
      have hfr : dictMem s.tasks ic.1 = false := hfresh ic (List.mem_cons_self _ _)
      have hstep : run_soon s (ic :: tl) = run_soon
          { s with tasks := dictSet s.tasks ic.1 ⟨ic.1, ic.2, 0⟩,
                   ready := s.ready ++ [⟨ic.1, ic.2, 0⟩] } tl := rfl
      rw [hstep]
      apply ih
      · refine ⟨?_, ?_, ?_⟩
        · rw [dictSet_fresh _ hfr]
          intro q hq
          rcases List.mem_append.mp hq with h1 | h1
          · exact hwf q h1
          · rw [List.mem_singleton.mp h1]
        · rw [dictSet_fresh _ hfr, List.map_append, List.nodup_append]
          refine ⟨hnd2, by simp, ?_⟩
          intro a ha hb
          simp only [List.map_cons, List.map_nil, List.mem_singleton] at hb
          rw [hb] at ha
          have hmm : dictMem s.tasks ic.1 = true := dictMem_iff.mpr ha
          rw [hfr] at hmm
          exact Bool.false_ne_true hmm
        · show (((s.ready ++ [(⟨ic.1, ic.2, 0⟩ : STask)]) ++ s.sleeping :
              List STask) : Multiset STask)
            = (((dictSet s.tasks ic.1 ⟨ic.1, ic.2, 0⟩).map Prod.snd :
              List STask) : Multiset STask)
          rw [dictSet_fresh _ hfr, List.map_append,
            ← Multiset.coe_add, ← Multiset.coe_add, ← Multiset.coe_add,
            ← hval, ← Multiset.coe_add]
          simp only [List.map_cons, List.map_nil, Multiset.coe_singleton]
          abel
      · rw [List.map_cons, List.nodup_cons] at hnd
        exact hnd.2
      · intro jc hjc
        show dictMem (dictSet s.tasks ic.1 ⟨ic.1, ic.2, 0⟩) jc.1 = false
        rw [dictSet_fresh _ hfr, dictMem_append]
        have h1 : dictMem s.tasks jc.1 = false := hfresh jc (List.mem_cons_of_mem _ hjc)
        have h2 : ic.1 ≠ jc.1 := by
          rw [List.map_cons, List.nodup_cons] at hnd
          intro he
          exact hnd.1 (he ▸ List.mem_map.mpr ⟨jc, hjc, rfl⟩)
        rw [h1]
        simp [h2]

theorem taskCancel_queues (s : Sched) (i : Nat) :
    (taskCancel s i).ready = s.ready ∧ (taskCancel s i).sleeping = s.sleeping := by
  unfold taskCancel
  split_ifs <;> exact ⟨rfl, rfl⟩

/-- C4 counterexample: `run_soon` with the same coroutine twice breaks
the invariant.  The dict entry `tasks[coro]` is replaced while both
`Task` wrappers stay in the ready deque, so a task is present in the
ReadyQueue without its own registry entry (two queue entries, one
registry entry) — and the run loop would later crash on the second
`del tasks[coro]`. -/
theorem run_soon_duplicate_counterexample :
    ¬ registryInv (run_soon initSched [(0, Coro.done), (0, Coro.done)]) := by
  intro h
  have hs : run_soon initSched [(0, Coro.done), (0, Coro.done)] =
      ⟨0, [⟨0, Coro.done, 0⟩, ⟨0, Coro.done, 0⟩], [],
        [(0, ⟨0, Coro.done, 0⟩)], [], []⟩ := rfl
  rw [hs] at h
  have := congrArg Multiset.card h.2.2
  simpa using this

/-- C4 (amended): the registry invariant — a task is in the ReadyQueue
or TimerHeap if and only if it has exactly one registry entry keyed by
its coroutine — holds initially and is preserved by `cancel`, by every
iteration of the run loop (which covers `sleep`, performed inside the
resumed task), and by `run_soon` provided the submitted coroutines are
fresh (not currently registered) and pairwise distinct.  `run_soon` with
a duplicate coroutine violates it (see the counterexample). -/
theorem registry_invariant_preserved :
    registryInv initSched ∧
    (∀ (s : Sched) (coros : List (Nat × Coro)), registryInv s →
      (coros.map Prod.fst).Nodup →
      (∀ ic ∈ coros, dictMem s.tasks ic.1 = false) →
      registryInv (run_soon s coros)) ∧
    (∀ (s s2 : Sched) (i : Nat), registryInv s → Sched.cancel s i = .ok s2 →
      registryInv s2) ∧
    (∀ s : Sched, registryInv s → registryInv (runIter s)) := by
  refine ⟨⟨fun p hp => absurd hp (by simp [initSched]), by simp [initSched], rfl⟩,
    fun s coros h hnd hf => run_soon_registryInv coros s h hnd hf,
    fun s s2 i h hc => ?_, runIter_registryInv⟩
  unfold Sched.cancel at hc
  split_ifs at hc with hm
  · obtain ⟨hwf, hnd, hval⟩ := h
    have h2 : s2 = taskCancel s i := (Except.ok.inj hc).symm
    rw [h2]
    refine ⟨?_, ?_, ?_⟩
    · rw [taskCancel_tasks]; exact hwf
    · rw [taskCancel_tasks]; exact hnd
    · rw [taskCancel_tasks, (taskCancel_queues s i).1, (taskCancel_queues s i).2]
      exact hval

theorem registry_invariant_preserved_witness :
    registryInv (run_soon initSched [(3, Coro.done)]) ∧
    registryInv (runIter (run_soon initSched [(3, Coro.done)])) := by
  have h1 : registryInv (run_soon initSched [(3, Coro.done)]) :=
    registry_invariant_preserved.2.1 initSched [(3, Coro.done)]
      registry_invariant_preserved.1 (by simp) (by intro ic h; cases h with
        | head => rfl
        | tail _ h2 => cases h2)
  exact ⟨h1, registry_invariant_preserved.2.2.2 _ h1⟩

/-! ## Timer ordering (C1) -/

/-- A task body that sleeps for `d` and then performs the observable
action `i`: the wake-up of task `i` is the `acted i` log entry. -/
def sleeper (i : Nat) (d : ℚ) : Nat × Coro :=
  (i, Coro.sleepC d (Coro.act i Coro.done))

/-- One sleeper task per entry of `ds`, submitted in index order; all
call `sleep(ds[i])` at the same virtual time (the initial round). -/
def sleepers (ds : List ℚ) : List (Nat × Coro) :=
  (List.range ds.length).map (fun i => sleeper i (ds.getD i 0))

/-- The multiset of task ids in a queue. -/
def idsOf (l : List STask) : Multiset Nat := ↑(l.map STask.tid)

theorem idsOf_append (a b : List STask) : idsOf (a ++ b) = idsOf a + idsOf b := by
  unfold idsOf
  rw [List.map_append, ← Multiset.coe_add]

theorem idsOf_cons (x : STask) (l : List STask) :
    idsOf (x :: l) = x.tid ::ₘ idsOf l := by
  unfold idsOf
  rw [List.map_cons, ← Multiset.cons_coe]

theorem idsOf_congr {l₁ l₂ : List STask}
    (h : (↑l₁ : Multiset STask) = ↑l₂) : idsOf l₁ = idsOf l₂ := by
  unfold idsOf
  rw [← Multiset.map_coe, ← Multiset.map_coe, h]

/-- C1 counterexample: three tasks submitted in order `0, 1, 2` sleep
for `2, 2, 1` respectively from virtual time `0`.  The claim predicts
wake order `[2, 0, 1]` (ascending deadline, submission order on the
tie), but the heap — whose `Task.__lt__` compares deadlines only, with
no sequence number — yields `[2, 1, 0]`: the equal-deadline tasks `0`
and `1` wake in reverse submission order. -/
theorem equal_deadline_tie_counterexample :
    wakes (run 7 (run_soon initSched [sleeper 0 2, sleeper 1 2, sleeper 2 1]))
        = [2, 1, 0] ∧
    ([2, 1, 0] : List Nat) ≠ [2, 0, 1] := by
  exact ⟨by with_unfolding_all rfl, by decide⟩

theorem heappop_cons_some (key : STask → ℚ) (a : STask) (tl : List STask) :
    ∃ p, heappop key (a :: tl) = some p := by
  unfold heappop
  cases (a :: tl).dropLast with
  | nil => exact ⟨_, rfl⟩
  | cons r0 rtl => exact ⟨_, rfl⟩

theorem heappop_mem (key : STask → ℚ) {l l' : List STask} {x : STask}
    (h : heappop key l = some (x, l')) : x ∈ l := by
  have hm := heappop_multiset key l l' x h
  have : x ∈ (↑l : Multiset STask) := by
    rw [hm]
    exact Multiset.mem_cons_self _ _
  exact Multiset.mem_coe.mp this

theorem moveExpired_nil_move (now : ℚ) :
    ∀ (fuel : Nat) (r sl : List STask), (∀ t ∈ sl, ¬ t.deadline ≤ now) →
      moveExpired now fuel r sl = (r, sl) := by
  intro fuel
  induction fuel with
  | zero => intro r sl _; rfl
  | succ fuel _ =>
      intro r sl h
      cases sl with
      | nil => rfl
      | cons s0 stl =>
          rw [show moveExpired now (fuel + 1) r (s0 :: stl)
              = if s0.deadline ≤ now then
                  (match heappop taskKey (s0 :: stl) with
                   | none => (r, s0 :: stl)
                   | some (t, rest) => moveExpired now fuel (r ++ [t]) rest)
                else (r, s0 :: stl) from rfl]
          rw [if_neg (h s0 (List.mem_cons_self _ _))]

theorem moveExpired_spec (now : ℚ) :
    ∀ (fuel : Nat) (r sl : List STask), heapInv taskKey sl →
      ∃ popped : List STask,
        (moveExpired now fuel r sl).1 = r ++ popped ∧
        heapInv taskKey (moveExpired now fuel r sl).2 ∧
        (∀ t ∈ (moveExpired now fuel r sl).2, t ∈ sl) ∧
        (∀ t ∈ popped, t ∈ sl) ∧
        List.Pairwise (fun a b : STask => a.deadline ≤ b.deadline) popped ∧
        (∀ p ∈ popped, ∀ t ∈ (moveExpired now fuel r sl).2,
          p.deadline ≤ t.deadline) := by
  intro fuel
  induction fuel with
  | zero =>
      intro r sl hInv
      exact ⟨[], by rw [List.append_nil]; rfl, hInv, fun t ht => ht,
        fun t ht => absurd ht (List.not_mem_nil t), List.Pairwise.nil,
        fun p hp => absurd hp (List.not_mem_nil p)⟩
  | succ fuel ih =>
      intro r sl hInv
      cases sl with
      | nil =>
          exact ⟨[], by rw [List.append_nil]; rfl, hInv, fun t ht => ht,
            fun t ht => absurd ht (List.not_mem_nil t), List.Pairwise.nil,
            fun p hp => absurd hp (List.not_mem_nil p)⟩
      | cons s0 stl =>
          rw [show moveExpired now (fuel + 1) r (s0 :: stl)
              = if s0.deadline ≤ now then
                  (match heappop taskKey (s0 :: stl) with
                   | none => (r, s0 :: stl)
                   | some (t, rest) => moveExpired now fuel (r ++ [t]) rest)
                else (r, s0 :: stl) from rfl]
          split_ifs with hdl
          · obtain ⟨p0, hp0⟩ := heappop_cons_some taskKey s0 stl
            rw [hp0]
            rcases p0 with ⟨t, rest⟩
            have hInv2 : heapInv taskKey rest := heappop_heapInv taskKey hInv hp0
            have hmin := heappop_min taskKey hInv hp0
            have htmem : t ∈ s0 :: stl := heappop_mem taskKey hp0
            obtain ⟨popped, h1, h2, h3, h4, h5, h6⟩ := ih (r ++ [t]) rest hInv2
            refine ⟨t :: popped, ?_, h2, ?_, ?_, ?_, ?_⟩
            · rw [h1, List.append_assoc]
              rfl
            · intro u hu
              exact mem_of_mem_heappop taskKey hp0 (h3 u hu)
            · intro u hu
              rcases List.mem_cons.mp hu with rfl | hu2
              · exact htmem
              · exact mem_of_mem_heappop taskKey hp0 (h4 u hu2)
            · refine List.Pairwise.cons ?_ h5
              intro u hu
              exact hmin u (mem_of_mem_heappop taskKey hp0 (h4 u hu))
            · intro p hp u hu
              rcases List.mem_cons.mp hp with rfl | hp2
              · exact hmin u (mem_of_mem_heappop taskKey hp0 (h3 u hu))
              · exact h6 p hp2 u hu
          · exact ⟨[], by rw [List.append_nil], hInv, fun t ht => ht,
              fun t ht => absurd ht (List.not_mem_nil t), List.Pairwise.nil,
              fun p hp => absurd hp (List.not_mem_nil p)⟩

theorem idsOf_heappush (l : List STask) (t : STask) :
    idsOf (heappush taskKey l t) = t.tid ::ₘ idsOf l := by
  unfold idsOf
  rw [← Multiset.map_coe, ← Multiset.map_coe, heappush_multiset,
    Multiset.map_cons]

theorem idsOf_heappop {l l' : List STask} {x : STask}
    (h : heappop taskKey l = some (x, l')) :
    idsOf l = x.tid ::ₘ idsOf l' := by
  unfold idsOf
  rw [← Multiset.map_coe, ← Multiset.map_coe, heappop_multiset taskKey l l' x h,
    Multiset.map_cons]

/-- The `Task` wrapper `run_soon` builds for the `i`-th sleeper. -/
def mkSleeperTask (ds : List ℚ) (i : Nat) : STask :=
  ⟨i, Coro.sleepC (ds.getD i 0) (Coro.act i Coro.done), 0⟩

/-- Phase-1 invariant of the sleeper scenario: the first `k` tasks have
been resumed once each and are parked in the timer heap with deadlines
`ds i` (all positive, none expired at virtual time `0`); the rest still
sit in the ready deque in submission order; nothing has woken. -/
def P1 (ds : List ℚ) (k : Nat) (s : Sched) : Prop :=
  s.now = 0 ∧ s.canceled = [] ∧ wakes s = [] ∧
  s.ready = ((List.range ds.length).drop k).map (mkSleeperTask ds) ∧
  heapInv taskKey s.sleeping ∧
  (∀ t ∈ s.sleeping, t.coro = Coro.act t.tid Coro.done ∧
    t.deadline = ds.getD t.tid 0 ∧ t.tid < ds.length ∧ 0 < t.deadline) ∧
  idsOf s.sleeping = ↑(List.range k)

/-- Phase-2 invariant: all remaining tasks are parked wake-ups; the
ready deque is sorted by deadline, everything already woken has a
deadline at most that of everything still pending, and the woken labels
together with the pending ids form exactly `range ds.length`. -/
def P2 (ds : List ℚ) (s : Sched) : Prop :=
  s.canceled = [] ∧
  heapInv taskKey s.sleeping ∧
  (∀ t ∈ s.ready ++ s.sleeping, t.coro = Coro.act t.tid Coro.done ∧
    t.deadline = ds.getD t.tid 0) ∧
  List.Pairwise (fun a b : STask => a.deadline ≤ b.deadline) s.ready ∧
  List.Pairwise (fun a b : Nat => ds.getD a 0 ≤ ds.getD b 0) (wakes s) ∧
  (∀ a ∈ wakes s, ∀ t ∈ s.ready ++ s.sleeping, ds.getD a 0 ≤ t.deadline) ∧
  (∀ r ∈ s.ready, ∀ t ∈ s.sleeping, r.deadline ≤ t.deadline) ∧
  (↑(wakes s) + idsOf (s.ready ++ s.sleeping) : Multiset Nat)
    = ↑(List.range ds.length)

theorem run_soon_fields :
    ∀ (coros : List (Nat × Coro)) (s : Sched),
      (run_soon s coros).ready
          = s.ready ++ coros.map (fun ic => (⟨ic.1, ic.2, 0⟩ : STask)) ∧
      (run_soon s coros).sleeping = s.sleeping ∧
      (run_soon s coros).now = s.now ∧
      (run_soon s coros).canceled = s.canceled ∧
      (run_soon s coros).log = s.log := by
  intro coros
  induction coros with
  | nil => intro s; exact ⟨(List.append_nil _).symm, rfl, rfl, rfl, rfl⟩
  | cons ic tl ih =>
      intro s
      have hstep : run_soon s (ic :: tl) = run_soon
          { s with tasks := dictSet s.tasks ic.1 ⟨ic.1, ic.2, 0⟩,
                   ready := s.ready ++ [⟨ic.1, ic.2, 0⟩] } tl := rfl
      rw [hstep]
      obtain ⟨h1, h2, h3, h4, h5⟩ := ih
        { s with tasks := dictSet s.tasks ic.1 ⟨ic.1, ic.2, 0⟩,
                 ready := s.ready ++ [⟨ic.1, ic.2, 0⟩] }
      refine ⟨?_, h2, h3, h4, h5⟩
      rw [h1]
      show s.ready ++ [(⟨ic.1, ic.2, 0⟩ : STask)] ++ _ = _
      rw [List.append_assoc]
      rfl

theorem P1_start (ds : List ℚ) :
    P1 ds 0 (run_soon initSched (sleepers ds)) := by
  obtain ⟨h1, h2, h3, h4, h5⟩ := run_soon_fields (sleepers ds) initSched
  refine ⟨h3, h4, ?_, ?_, ?_, ?_, ?_⟩
  · unfold wakes
    rw [h5]
    rfl
  · rw [h1, List.drop_zero]
    show [] ++ _ = _
    rw [List.nil_append]
    unfold sleepers
    rw [List.map_map]
    rfl
  · rw [h2]
    exact heapInv_nil taskKey
  · rw [h2]
    intro t ht
    exact absurd ht (List.not_mem_nil t)
  · rw [h2]
    rfl

theorem P1_step (ds : List ℚ) (hds : ∀ d ∈ ds, 0 < d) (k : Nat) (s : Sched)
    (h : P1 ds k s) (hk : k < ds.length) : P1 ds (k + 1) (runIter s) := by
  obtain ⟨hnow, hcan, hwak, hrdy, hheap, hmem, hids⟩ := h
  have hdrop : (List.range ds.length).drop k
      = k :: (List.range ds.length).drop (k + 1) := by
    rw [List.drop_eq_getElem_cons (by simpa using hk)]
    congr 1
    simp
  have hnm : moveExpired s.now s.sleeping.length s.ready s.sleeping
      = (s.ready, s.sleeping) := by
    apply moveExpired_nil_move
    intro t ht hle
    have hpos := (hmem t ht).2.2.2
    rw [hnow] at hle
    exact absurd (lt_of_lt_of_le hpos hle) (lt_irrefl 0)
  unfold runIter
  rw [hnm, hrdy, hdrop, List.map_cons, runIterPick]
  unfold afterPop
  rw [if_neg (by
    show (mkSleeperTask ds k).tid ∈ s.canceled → False
    rw [hcan]
    exact fun hx => absurd hx (List.not_mem_nil _))]
  rw [show (mkSleeperTask ds k).coro.resume
      = ([], Outcome.slept (ds.getD k 0) (Coro.act k Coro.done)) from rfl]
  rw [afterResume]
  refine ⟨hnow ▸ rfl, hcan ▸ rfl, ?_, ?_, ?_, ?_, ?_⟩
  · show wakes _ = []
    unfold wakes at hwak ⊢
    rw [List.filterMap_append, hwak]
    rfl
  · rfl
  · exact heappush_heapInv taskKey s.sleeping _ hheap
  · intro t ht
    rcases mem_heappush taskKey ht with rfl | ht2
    · refine ⟨rfl, ?_, hk, ?_⟩
      · show s.now + ds.getD k 0 = ds.getD k 0
        rw [hnow, zero_add]
      · show (0 : ℚ) < s.now + ds.getD k 0
        rw [hnow, zero_add]
        apply hds
        rw [List.getD_eq_getElem ds 0 (by exact hk)]
        exact List.getElem_mem _
    · exact hmem t ht2
  · rw [idsOf_heappush, hids]
    show (k : Nat) ::ₘ ↑(List.range k) = ↑(List.range (k + 1))
    rw [List.range_succ, ← Multiset.coe_add, Multiset.coe_singleton,
      add_comm, Multiset.singleton_add]

theorem P1_final (ds : List ℚ) (s : Sched) (h : P1 ds ds.length s) :
    P2 ds s ∧ s.ready = [] ∧ wakes s = [] ∧ s.sleeping.length = ds.length := by
  obtain ⟨hnow, hcan, hwak, hrdy, hheap, hmem, hids⟩ := h
  have hready : s.ready = [] := by
    rw [hrdy, show (List.range ds.length).drop ds.length = [] from by
      rw [List.drop_length_le (by rw [List.length_range])]]
    rfl
  have hlen : s.sleeping.length = ds.length := by
    have := congrArg Multiset.card hids
    unfold idsOf at this
    simpa using this
  refine ⟨⟨hcan, hheap, ?_, ?_, ?_, ?_, ?_, ?_⟩, hready, hwak, hlen⟩
  · intro t ht
    rw [hready, List.nil_append] at ht
    exact ⟨(hmem t ht).1, (hmem t ht).2.1⟩
  · rw [hready]
    exact List.Pairwise.nil
  · rw [hwak]
    exact List.Pairwise.nil
  · intro a ha
    rw [hwak] at ha
    exact absurd ha (List.not_mem_nil a)
  · intro r hr
    rw [hready] at hr
    exact absurd hr (List.not_mem_nil r)
  · rw [hwak, hready, List.nil_append, hids]
    rfl

theorem wakes_log_acted (now2 : ℚ) (rd sl : List STask) (tk : List (Nat × STask))
    (cn : List Nat) (lg : List Ev) (i l : Nat) (t : ℚ) :
    wakes ⟨now2, rd, sl, tk, cn, lg ++ [Ev.resumed i t, Ev.acted i l t]⟩
      = wakes ⟨now2, rd, sl, tk, cn, lg⟩ ++ [l] := by
  unfold wakes
  rw [List.filterMap_append]
  rfl

theorem afterPop_wake (s : Sched) (rest sl' : List STask) (now' : ℚ) (cur : STask)
    (hcan0 : s.canceled = [])
    (hc : cur.coro = Coro.act cur.tid Coro.done) :
    afterPop { s with ready := rest, sleeping := sl', now := now' } cur
      = { s with
          ready := rest, sleeping := sl', now := now',
          tasks := dictDel s.tasks cur.tid,
          log := s.log ++ [Ev.resumed cur.tid now', Ev.acted cur.tid cur.tid now'] } := by
  unfold afterPop
  split_ifs with hcm
  · exact absurd (show cur.tid ∈ s.canceled from hcm)
      (by rw [hcan0]; exact List.not_mem_nil _)
  · rw [hc]
    rfl


theorem P2_step (ds : List ℚ) (s : Sched) (h : P2 ds s)
    (hne : s.ready = [] → s.sleeping ≠ []) :
    P2 ds (runIter s) ∧
    (runIter s).ready.length + (runIter s).sleeping.length + 1
      = s.ready.length + s.sleeping.length := by
  obtain ⟨hcan, hheap, hall, hPready, hwkP, hwle, hrs, hms⟩ := h
  obtain ⟨popped, h1, h2, h3, h4, h5, h6⟩ :=
    moveExpired_spec s.now s.sleeping.length s.ready s.sleeping hheap
  have hmul := moveExpired_multiset s.now s.sleeping.length s.ready s.sleeping
  have hms2 : (↑(wakes s) : Multiset Nat) + (idsOf s.ready + idsOf s.sleeping)
      = ↑(List.range ds.length) := by
    rw [← idsOf_append]
    exact hms
  unfold runIter
  cases hme : moveExpired s.now s.sleeping.length s.ready s.sleeping with
  | mk r' sl' =>
  simp only [hme] at h1 h2 h3 h6 hmul ⊢
  cases r' with
  | cons cur rest =>
    rw [show runIterPick s (cur :: rest, sl')
        = afterPop { s with ready := rest, sleeping := sl' } cur from rfl]
    have hr'mem : ∀ t ∈ cur :: rest, t ∈ s.ready ++ s.sleeping := by
      intro t ht
      rw [h1] at ht
      rcases List.mem_append.mp ht with hx | hx
      · exact List.mem_append_left _ hx
      · exact List.mem_append_right _ (h4 t hx)
    have hcurm : cur ∈ s.ready ++ s.sleeping := hr'mem cur (List.mem_cons_self _ _)
    have hcurC := hall cur hcurm
    have hPr' : List.Pairwise (fun a b : STask => a.deadline ≤ b.deadline)
        (cur :: rest) := by
      rw [h1]
      exact List.pairwise_append.mpr ⟨hPready, h5,
        fun a ha b hb => hrs a ha b (h4 b hb)⟩
    have hgen : ∀ p ∈ cur :: rest, ∀ t ∈ sl', p.deadline ≤ t.deadline := by
      intro p hp t ht
      rw [h1] at hp
      rcases List.mem_append.mp hp with hx | hx
      · exact hrs p hx t (h3 t ht)
      · exact h6 p hx t ht
    have hid : idsOf s.ready + idsOf s.sleeping
        = (cur.tid ::ₘ idsOf rest) + idsOf sl' := by
      have e1 : idsOf ((cur :: rest) ++ sl') = idsOf (s.ready ++ s.sleeping) :=
        idsOf_congr hmul
      rw [idsOf_append, idsOf_append, idsOf_cons] at e1
      exact e1.symm
    have hlen := congrArg Multiset.card hmul
    simp at hlen
    rw [afterPop_wake s rest sl' s.now cur hcan hcurC.1]
    constructor
    · refine ⟨hcan, h2, ?_, (List.pairwise_cons.mp hPr').2, ?_, ?_, ?_, ?_⟩
      · intro t ht
        rcases List.mem_append.mp ht with hx | hx
        · exact hall t (hr'mem t (List.mem_cons_of_mem _ hx))
        · exact hall t (List.mem_append_right _ (h3 t hx))
      · rw [wakes_log_acted]
        refine List.pairwise_append.mpr ⟨hwkP, ?_, ?_⟩
        · exact List.Pairwise.cons (fun b hb => absurd hb (List.not_mem_nil b))
            List.Pairwise.nil
        · intro a ha b hb
          rw [List.mem_singleton] at hb
          subst hb
          rw [← hcurC.2]
          exact hwle a ha cur hcurm
      · rw [wakes_log_acted]
        intro a ha t ht
        have htm : t ∈ s.ready ++ s.sleeping := by
          rcases List.mem_append.mp ht with hx | hx
          · exact hr'mem t (List.mem_cons_of_mem _ hx)
          · exact List.mem_append_right _ (h3 t hx)
        rcases List.mem_append.mp ha with hx | hx
        · exact hwle a hx t htm
        · rw [List.mem_singleton] at hx
          subst hx
          rw [← hcurC.2]
          rcases List.mem_append.mp ht with hy | hy
          · exact (List.pairwise_cons.mp hPr').1 t hy
          · exact hgen cur (List.mem_cons_self _ _) t hy
      · intro r hr t ht
        exact hgen r (List.mem_cons_of_mem _ hr) t ht
      · simp only [wakes_log_acted]
        rw [show wakes (⟨s.now, rest, sl', dictDel s.tasks cur.tid, s.canceled,
            s.log⟩ : Sched) = wakes s from rfl]
        rw [← Multiset.coe_add, Multiset.coe_singleton, idsOf_append]
        rw [← hms2, hid, ← Multiset.singleton_add]
        abel
    · show rest.length + sl'.length + 1 = s.ready.length + s.sleeping.length
      omega
  | nil =>
    have hrdy : s.ready = [] := (List.append_eq_nil.mp h1.symm).1
    have hslne : s.sleeping ≠ [] := hne hrdy
    have hmul' : (↑sl' : Multiset STask) = ↑s.sleeping := by
      rw [hrdy] at hmul
      simpa using hmul
    cases sl' with
    | nil => exact absurd ((Multiset.coe_eq_zero _).mp hmul'.symm) hslne
    | cons x xtl =>
      obtain ⟨⟨cur, rest⟩, hpop⟩ := heappop_cons_some taskKey x xtl
      rw [show runIterPick s ([], x :: xtl)
          = runIterPop { s with ready := [], sleeping := x :: xtl }
              (heappop taskKey (x :: xtl)) from rfl]
      rw [hpop]
      rw [show runIterPop { s with ready := [], sleeping := x :: xtl }
            (some (cur, rest))
          = afterPop { s with ready := [], sleeping := rest, now := cur.deadline }
              cur from rfl]
      have hcurm : cur ∈ s.sleeping := h3 cur (heappop_mem taskKey hpop)
      have hcurm2 : cur ∈ s.ready ++ s.sleeping := List.mem_append_right _ hcurm
      have hcurC := hall cur hcurm2
      have hrestInv := heappop_heapInv taskKey h2 hpop
      have hmin := heappop_min taskKey h2 hpop
      rw [afterPop_wake s [] rest cur.deadline cur hcan hcurC.1]
      constructor
      · refine ⟨hcan, hrestInv, ?_, List.Pairwise.nil, ?_, ?_, ?_, ?_⟩
        · intro t ht
          rw [List.nil_append] at ht
          exact hall t (List.mem_append_right _
            (h3 t (mem_of_mem_heappop taskKey hpop ht)))
        · rw [wakes_log_acted]
          refine List.pairwise_append.mpr ⟨hwkP, ?_, ?_⟩
          · exact List.Pairwise.cons (fun b hb => absurd hb (List.not_mem_nil b))
              List.Pairwise.nil
          · intro a ha b hb
            rw [List.mem_singleton] at hb
            subst hb
            rw [← hcurC.2]
            exact hwle a ha cur hcurm2
        · rw [wakes_log_acted]
          intro a ha t ht
          rw [List.nil_append] at ht
          have htsl : t ∈ s.sleeping := h3 t (mem_of_mem_heappop taskKey hpop ht)
          rcases List.mem_append.mp ha with hx | hx
          · exact hwle a hx t (List.mem_append_right _ htsl)
          · rw [List.mem_singleton] at hx
            subst hx
            rw [← hcurC.2]
            exact hmin t (mem_of_mem_heappop taskKey hpop ht)
        · intro r hr
          exact absurd hr (List.not_mem_nil r)
        · simp only [wakes_log_acted, List.nil_append]
          rw [show wakes (⟨cur.deadline, [], rest, dictDel s.tasks cur.tid,
              s.canceled, s.log⟩ : Sched) = wakes s from rfl]
          rw [← Multiset.coe_add, Multiset.coe_singleton]
          have hidsl : idsOf s.sleeping = cur.tid ::ₘ idsOf rest := by
            rw [← idsOf_congr hmul', idsOf_heappop hpop]
          rw [← hms2, hrdy, hidsl, show idsOf [] = 0 from rfl, zero_add,
            ← Multiset.singleton_add]
          abel
      · show 0 + rest.length + 1 = s.ready.length + s.sleeping.length
        have hl0 : s.ready.length = 0 := by
          rw [hrdy]
          rfl
        have hl1 := congrArg Multiset.card hmul'
        simp at hl1
        have hl2 := heappop_length taskKey hpop
        simp at hl2
        omega


theorem run_empty (fuel : Nat) (s : Sched) (h1 : s.ready = [])
    (h2 : s.sleeping = []) : run fuel s = s := by
  cases fuel with
  | zero => rfl
  | succ fuel =>
      unfold run
      rw [if_pos (by rw [h1, h2]; rfl)]

theorem run_one (s : Sched) :
    run 1 s = if (s.ready.isEmpty && s.sleeping.isEmpty) = true then s
      else runIter s := rfl

theorem run_add (a b : Nat) : ∀ s : Sched, run (a + b) s = run b (run a s) := by
  induction a with
  | zero =>
      intro s
      rw [Nat.zero_add]
      rfl
  | succ a ih =>
      intro s
      rw [Nat.succ_add]
      show (if (s.ready.isEmpty && s.sleeping.isEmpty) = true then s
            else run (a + b) (runIter s))
          = run b (if (s.ready.isEmpty && s.sleeping.isEmpty) = true then s
            else run a (runIter s))
      split_ifs with hc
      · simp only [Bool.and_eq_true, List.isEmpty_iff] at hc
        exact (run_empty b s hc.1 hc.2).symm
      · exact ih (runIter s)

theorem P1_run (ds : List ℚ) (hds : ∀ d ∈ ds, 0 < d) :
    ∀ k, k ≤ ds.length →
      P1 ds k (run k (run_soon initSched (sleepers ds))) := by
  intro k
  induction k with
  | zero =>
      intro _
      exact P1_start ds
  | succ k ih =>
      intro hk
      have hP := ih (Nat.le_of_succ_le hk)
      have hne : (run k (run_soon initSched (sleepers ds))).ready ≠ [] := by
        obtain ⟨_, _, _, hrdy, _, _, _⟩ := hP
        rw [hrdy]
        intro hL
        have hlen := congrArg List.length hL
        rw [List.length_map, List.length_drop, List.length_range,
          List.length_nil] at hlen
        omega
      rw [run_add k 1, run_one]
      rw [if_neg (fun hc => hne (by
        simp only [Bool.and_eq_true, List.isEmpty_iff] at hc
        exact hc.1))]
      exact P1_step ds hds k _ hP (by omega)

theorem P2_run_inv (ds : List ℚ) :
    ∀ (fuel : Nat) (s : Sched), P2 ds s → P2 ds (run fuel s) := by
  intro fuel
  induction fuel with
  | zero => intro s h; exact h
  | succ fuel ih =>
      intro s h
      rw [show run (fuel + 1) s
          = if (s.ready.isEmpty && s.sleeping.isEmpty) = true then s
            else run fuel (runIter s) from rfl]
      split_ifs with hc
      · exact h
      · apply ih
        have hne : s.ready = [] → s.sleeping ≠ [] := by
          intro h1 h2
          apply hc
          rw [h1, h2]
          rfl
        exact (P2_step ds s h hne).1

theorem P2_run_done (ds : List ℚ) :
    ∀ (m : Nat) (s : Sched), P2 ds s →
      s.ready.length + s.sleeping.length = m →
      (run m s).ready = [] ∧ (run m s).sleeping = [] := by
  intro m
  induction m with
  | zero =>
      intro s _ hm
      show s.ready = [] ∧ s.sleeping = []
      exact ⟨List.length_eq_zero.mp (by omega),
        List.length_eq_zero.mp (by omega)⟩
  | succ m ih =>
      intro s h hm
      rw [show run (m + 1) s
          = if (s.ready.isEmpty && s.sleeping.isEmpty) = true then s
            else run m (runIter s) from rfl]
      split_ifs with hc
      · exfalso
        simp only [Bool.and_eq_true, List.isEmpty_iff] at hc
        rw [hc.1, hc.2] at hm
        simp at hm
      · have hne : s.ready = [] → s.sleeping ≠ [] := by
          intro h1 h2
          apply hc
          rw [h1, h2]
          rfl
        obtain ⟨hP2, hcnt⟩ := P2_step ds s h hne
        exact ih (runIter s) hP2 (by omega)

/-- C1 (amended): for tasks submitted at virtual time 0 that each sleep
for a positive `ds i`, every run of the scheduler wakes them in ascending
order of their deadlines, and within `2 * ds.length` loop iterations every
task has been resumed exactly once (the woken labels are exactly
`0, ..., ds.length - 1` as a multiset).  The claim's stronger tie-break —
equal deadlines wake in submission order via a `(deadline, sequence
number)` heap key — is false: `Task.__lt__` compares deadlines only and
no sequence number exists, see `equal_deadline_tie_counterexample`. -/
theorem sleep_wakeup_order (ds : List ℚ) (hds : ∀ d ∈ ds, 0 < d) :
    (∀ fuel, List.Pairwise (fun a b : Nat => ds.getD a 0 ≤ ds.getD b 0)
      (wakes (run fuel (run_soon initSched (sleepers ds))))) ∧
    (↑(wakes (run (ds.length + ds.length) (run_soon initSched (sleepers ds))))
      : Multiset Nat) = ↑(List.range ds.length) := by
  constructor
  · intro fuel
    rcases le_or_lt fuel ds.length with hle | hgt
    · obtain ⟨_, _, hw, _⟩ := P1_run ds hds fuel hle
      rw [hw]
      exact List.Pairwise.nil
    · have hsplit : fuel = ds.length + (fuel - ds.length) := by omega
      rw [hsplit, run_add]
      have hP2 := (P1_final ds _ (P1_run ds hds ds.length (le_refl _))).1
      exact (P2_run_inv ds (fuel - ds.length) _ hP2).2.2.2.2.1
  · rw [run_add]
    obtain ⟨hP2, hrdy, hwk0, hlen⟩ :=
      P1_final ds _ (P1_run ds hds ds.length (le_refl _))
    have hP2' := P2_run_inv ds ds.length _ hP2
    obtain ⟨hre, hse⟩ := P2_run_done ds ds.length _ hP2
      (by rw [hrdy, hlen]; simp)
    have hms := hP2'.2.2.2.2.2.2.2
    rw [hre, hse] at hms
    rw [show idsOf ([] ++ []) = 0 from rfl, add_zero] at hms
    exact hms


theorem sleep_wakeup_order_witness :
    (∀ d ∈ ([2, 2, 1] : List ℚ), 0 < d) ∧
    ((∀ fuel, List.Pairwise
        (fun a b : Nat =>
          ([2, 2, 1] : List ℚ).getD a 0 ≤ ([2, 2, 1] : List ℚ).getD b 0)
        (wakes (run fuel (run_soon initSched (sleepers [2, 2, 1]))))) ∧
      (↑(wakes (run (([2, 2, 1] : List ℚ).length + ([2, 2, 1] : List ℚ).length)
          (run_soon initSched (sleepers [2, 2, 1]))))
        : Multiset Nat) = ↑(List.range ([2, 2, 1] : List ℚ).length)) :=
  ⟨by decide, sleep_wakeup_order [2, 2, 1] (by decide)⟩


/-! ## Geometry claims -/

theorem pyRound_nonneg (q : ℚ) (hq : 0 ≤ q) : 0 ≤ pyRound q := by
  unfold pyRound
  have h0 : (0 : ℤ) ≤ ⌊q⌋ := Int.floor_nonneg.mpr hq
  split_ifs <;> linarith

theorem pyRound_intCast (n : ℤ) : pyRound (n : ℚ) = n := by
  unfold pyRound
  rw [Int.floor_intCast]
  norm_num

/-- C6 counterexample: the claim states that a fractional spec always
yields `round(spec × axisBound)`, but `convert` applies the negative
wrap to the rounded value as well: `convert(-0.5, 10)` is `5`, while
`round(-0.5 × 10) = -5`. -/
theorem convert_neg_fractional_counterexample :
    convert (.f (-1/2)) 10 = 5 ∧ pyRound ((-1/2 : ℚ) * (10 : ℤ)) = -5 := by
  have h : ((-1/2 : ℚ)) * ((10 : ℤ) : ℚ) = ((-5 : ℤ) : ℚ) := by norm_num
  have h5 : pyRound ((-1/2 : ℚ) * ((10 : ℤ) : ℚ)) = -5 := by
    rw [h, pyRound_intCast]
  refine ⟨?_, h5⟩
  simp only [convert, h5]
  norm_num

/-- C6 (amended): `convert(spec, axisBound)` returns
`round(spec × axisBound)` when `spec` is fractional and the rounded
value is non-negative (in particular whenever `spec` and `axisBound`
are), returns `round(spec × axisBound) + axisBound` when the rounded
value is negative, and for an absolute integer `spec` returns
`axisBound + spec` when negative and `spec` unchanged otherwise; there
is no clamping to zero and no side effect (`convert` is a pure
function). -/
theorem convert_characterization :
    (∀ (q : ℚ) (bz : ℤ), 0 ≤ q → 0 ≤ bz → convert (.f q) bz = pyRound (q * bz)) ∧
    (∀ (q : ℚ) (bz : ℤ), pyRound (q * bz) < 0 →
      convert (.f q) bz = pyRound (q * bz) + bz) ∧
    (∀ n bz : ℤ, convert (.i n) bz = if n < 0 then n + bz else n) := by
  refine ⟨fun q bz hq hb => ?_, fun q bz hneg => ?_, fun n bz => rfl⟩
  · have h : 0 ≤ pyRound (q * bz) := by
      apply pyRound_nonneg
      have : (0 : ℚ) ≤ (bz : ℚ) := by exact_mod_cast hb
      positivity
    simp only [convert, if_neg (not_lt.mpr h)]
  · simp only [convert, if_pos hneg]

theorem convert_characterization_witness :
    convert (.f (3/10)) 20 = pyRound ((3/10 : ℚ) * ((20 : ℤ) : ℚ)) ∧
    convert (.f (-1/5)) 10 = pyRound ((-1/5 : ℚ) * ((10 : ℤ) : ℚ)) + 10 :=
  ⟨convert_characterization.1 (3/10) 20 (by norm_num) (by norm_num),
   convert_characterization.2.1 (-1/5) 10 (by
      have h : ((-1/5 : ℚ)) * ((10 : ℤ) : ℚ) = ((-2 : ℤ) : ℚ) := by norm_num
      rw [h, pyRound_intCast]
      norm_num)⟩

/-- C7: geometry resolution is idempotent — for a rooted widget,
running `update_geometry` twice against the same parent height and
width (the hints being restored by the first run) produces the same
widget state, in particular the same absolute `top`, `left`, `height`
and `width`, as running it once. -/
theorem update_geometry_idempotent (w : WidgetGeom) (h pw : ℤ) :
    update_geometry (update_geometry w h pw) h pw = update_geometry w h pw := by
  obtain ⟨t, l, hh, ww, ⟨ph1, ph2⟩, ⟨sh1, sh2⟩⟩ := w
  cases ph1 <;> cases ph2 <;> cases sh1 <;> cases sh2 <;>
    cases hh <;> cases ww <;>
      simp [update_geometry, setTop, setLeft, setHeight, setWidth]

/-- C10: `update_geometry` leaves `pos_hint` and `size_hint` equal to
their values before the call — the hint-clearing callbacks fired by the
internal assignments are compensated by the re-assignment of the saved
hint pairs. -/
theorem update_geometry_preserves_hints (w : WidgetGeom) (h pw : ℤ) :
    (update_geometry w h pw).pos_hint = w.pos_hint ∧
    (update_geometry w h pw).size_hint = w.size_hint := by
  obtain ⟨t, l, hh, ww, ⟨ph1, ph2⟩, ⟨sh1, sh2⟩⟩ := w
  cases ph1 <;> cases ph2 <;> cases sh1 <;> cases sh2 <;>
    cases hh <;> cases ww <;>
      simp [update_geometry, setTop, setLeft, setHeight, setWidth]

/-- C8: the region copied when a child is blitted onto its parent in
`Widget.refresh` is exactly the one the spec describes: source offsets
`max(0, -top)` and `max(0, -left)`, destination offsets `max(0, top)`
and `max(0, left)`, destination extents `min(parentHeight - 1,
des_t + childHeight)` and `min(parentWidth - 1, des_l + childWidth - 1)`. -/
theorem refreshClip_eq_specClip (y x ch cw h w : ℤ) :
    refreshClip y x ch cw h w = specClip y x ch cw h w := by
  simp only [refreshClip, specClip, Prod.mk.injEq]
  refine ⟨?_, ?_, ?_, ?_, ?_, ?_⟩ <;> split_ifs <;> omega

/-! ## Dispatch claim -/

theorem specVisit_append_handled (xs ys : List WTree)
    (h : (specVisit xs).1 = true) : specVisit (xs ++ ys) = specVisit xs := by
  induction xs with
  | nil => simp [specVisit] at h
  | cons c tl ih =>
      by_cases hc : c.on_press = true
      · rw [List.cons_append, specVisit, specVisit, if_pos hc, if_pos hc]
      · rw [specVisit, if_neg hc] at h
        rw [List.cons_append, specVisit, if_neg hc, ih h,
          show specVisit (c :: tl) = ((specVisit tl).1, c.wid :: (specVisit tl).2)
            from by rw [specVisit, if_neg hc]]

theorem specVisit_append_not (xs ys : List WTree)
    (h : (specVisit xs).1 = false) :
    specVisit (xs ++ ys) =
      ((specVisit ys).1, (specVisit xs).2 ++ (specVisit ys).2) := by
  induction xs with
  | nil => simp [specVisit]
  | cons c tl ih =>
      by_cases hc : c.on_press = true
      · rw [specVisit, if_pos hc] at h
        simp at h
      · rw [specVisit, if_neg hc] at h
        rw [List.cons_append, specVisit, if_neg hc, ih h,
          show specVisit (c :: tl) = ((specVisit tl).1, c.wid :: (specVisit tl).2)
            from by rw [specVisit, if_neg hc]]
        simp

theorem dispatchChildren_eq_aux :
    ∀ (n : Nat) (l : List WTree), sizeOf l ≤ n →
      dispatchChildren l = specVisit (preorderRevList l) := by
  intro n
  induction n with
  | zero =>
      intro l hl
      cases l with
      | nil => rw [dispatchChildren, preorderRevList, specVisit]
      | cons c rest =>
          exfalso
          simp only [List.cons.sizeOf_spec] at hl
          omega
  | succ n ih =>
      intro l hl
      cases l with
      | nil => rw [dispatchChildren, preorderRevList, specVisit]
      | cons c rest =>
        cases c with
        | node i b cs =>
          have hrest : sizeOf rest ≤ n := by
            simp only [List.cons.sizeOf_spec] at hl; omega
          have hcs : sizeOf cs.reverse ≤ n := by
            rw [WTree.sizeOf_reverse]
            simp only [List.cons.sizeOf_spec, WTree.node.sizeOf_spec] at hl
            omega
          have hd : dispatch (WTree.node i b cs) =
              specVisit (preorderRevList cs.reverse) := by
            rw [dispatch]
            exact ih cs.reverse hcs
          have hr : dispatchChildren rest = specVisit (preorderRevList rest) :=
            ih rest hrest
          rw [dispatchChildren, preorderRevList, preorderRev]
          cases b with
          | true => simp [WTree.on_press, WTree.wid, specVisit]
          | false =>
              simp only [WTree.on_press, Bool.false_eq_true, if_false, hd, hr,
                specVisit, WTree.wid]
              by_cases hfst : (specVisit (preorderRevList cs.reverse)).1 = true
              · rw [specVisit_append_handled _ _ hfst]
                simp [hfst]
              · rw [Bool.not_eq_true] at hfst
                rw [specVisit_append_not _ _ hfst]
                simp [hfst]

theorem dispatchChildren_eq (l : List WTree) :
    dispatchChildren l = specVisit (preorderRevList l) :=
  dispatchChildren_eq_aux (sizeOf l) l le_rfl

/-- C9: `dispatch` calls handlers exactly along the front-first walk
(reverse z-order among siblings, each widget's own handler before its
descendants) and stops at the first handler that reports the key
handled: `dispatch t` equals `specVisit` of that walk.  In particular,
when the front-most child's own handler handles the key, it is the only
handler invoked — the key reaches neither widgets behind it nor that
widget's own children. -/
theorem dispatch_characterization :
    (∀ t : WTree, dispatch t = specVisit (preorderRev t)) ∧
    (∀ (i : Nat) (b : Bool) (cs : List WTree) (c : WTree),
      c.on_press = true →
      dispatch (.node i b (cs ++ [c])) = (true, [c.wid])) := by
  constructor
  · intro t
    obtain ⟨i, b, cs⟩ := t
    rw [dispatch, preorderRev]
    exact dispatchChildren_eq cs.reverse
  · intro i b cs c hc
    rw [dispatch, List.reverse_append, List.reverse_singleton,
      List.singleton_append, dispatchChildren, if_pos hc]

theorem dispatch_characterization_witness :
    dispatch (.node 0 false
        ([.node 1 false []] ++ [.node 2 true [.node 3 true []]])) =
      (true, [2]) :=
  dispatch_characterization.2 0 false [.node 1 false []]
    (.node 2 true [.node 3 true []]) rfl


end Nurses

namespace Nurses

theorem runIter_ready (τ d0 : ℚ) (lg : List Ev) (tk : List (Nat × STask))
    (tid : Nat) (c : Coro) :
    runIter ⟨τ, [⟨tid, c, d0⟩], [], tk, [], lg⟩
      = afterResume
          ⟨τ, [], [], dictDel tk tid, [],
            lg ++ Ev.resumed tid τ ::
              (c.resume).1.map (fun l => Ev.acted tid l τ)⟩
          ⟨tid, c, d0⟩ (c.resume).2 := rfl

theorem runIter_sleeping (τ dl : ℚ) (lg : List Ev) (tk : List (Nat × STask))
    (tid : Nat) (c : Coro) (hnle : ¬ dl ≤ τ) :
    runIter ⟨τ, [], [⟨tid, c, dl⟩], tk, [], lg⟩
      = afterResume
          ⟨dl, [], [], dictDel tk tid, [],
            lg ++ Ev.resumed tid dl ::
              (c.resume).1.map (fun l => Ev.acted tid l dl)⟩
          ⟨tid, c, dl⟩ (c.resume).2 := by
  unfold runIter
  rw [moveExpired_nil_move τ _ [] [⟨tid, c, dl⟩]
    (by
      intro t ht
      rw [List.mem_singleton] at ht
      rw [ht]
      exact hnle)]
  rfl

/-- The run-loop events of a parked `wrapped` task with `m` invocations
left, sleeping at virtual time `τ` with deadline `τ + delay`: each wake
resumes and acts `delay` later, and the final wake resumes the exhausted
coroutine without an action. -/
def cycleLog (tid label : Nat) (delay : ℚ) : Nat → ℚ → List Ev
  | 0, τ => [Ev.resumed tid (τ + delay)]
  | m + 1, τ =>
      Ev.resumed tid (τ + delay) :: Ev.acted tid label (τ + delay) ::
        cycleLog tid label delay m (τ + delay)

/-- The run-loop events of a ready `wrapped` task with `m` invocations
left on the yield path: everything happens at the same virtual time. -/
def yieldLog (tid label : Nat) (τ : ℚ) : Nat → List Ev
  | 0 => [Ev.resumed tid τ]
  | m + 1 =>
      Ev.resumed tid τ :: Ev.acted tid label τ :: yieldLog tid label τ m

/-- The run-loop events of `fuel` iterations of a parked `while True`
task on the sleep path. -/
def foreverLog (tid label : Nat) (delay : ℚ) : Nat → ℚ → List Ev
  | 0, _ => []
  | f + 1, τ =>
      Ev.resumed tid (τ + delay) :: Ev.acted tid label (τ + delay) ::
        foreverLog tid label delay f (τ + delay)

/-- The run-loop events of `fuel` iterations of a ready `while True`
task on the yield path. -/
def foreverYieldLog (tid label : Nat) (τ : ℚ) : Nat → List Ev
  | 0 => []
  | f + 1 =>
      Ev.resumed tid τ :: Ev.acted tid label τ :: foreverYieldLog tid label τ f

theorem wakes_cycleLog (now2 : ℚ) (rd sl : List STask) (tk : List (Nat × STask))
    (cn : List Nat) (tid label : Nat) (delay : ℚ) :
    ∀ (m : Nat) (τ : ℚ),
      wakes ⟨now2, rd, sl, tk, cn, cycleLog tid label delay m τ⟩
        = List.replicate m label := by
  intro m
  induction m with
  | zero => intro τ; rfl
  | succ m ih =>
      intro τ
      show label ::
        wakes ⟨now2, rd, sl, tk, cn, cycleLog tid label delay m (τ + delay)⟩
        = _
      rw [ih]
      rfl

theorem actTimes_cycleLog (now2 : ℚ) (rd sl : List STask)
    (tk : List (Nat × STask)) (cn : List Nat) (tid label : Nat) (delay : ℚ) :
    ∀ (m : Nat) (τ : ℚ),
      actTimes ⟨now2, rd, sl, tk, cn, cycleLog tid label delay m τ⟩
        = (List.range m).map (fun j : Nat => τ + ((j : ℚ) + 1) * delay) := by
  intro m
  induction m with
  | zero => intro τ; rfl
  | succ m ih =>
      intro τ
      show (τ + delay) ::
        actTimes ⟨now2, rd, sl, tk, cn, cycleLog tid label delay m (τ + delay)⟩
        = _
      rw [ih, List.range_succ_eq_map, List.map_cons, List.map_map]
      congr 1
      · show τ + delay = τ + (((0 : Nat) : ℚ) + 1) * delay
        push_cast
        ring
      · apply List.map_congr_left
        intro j _
        simp only [Function.comp_apply]
        push_cast
        ring

theorem actTimes_cycleLog_chain (now2 : ℚ) (rd sl : List STask)
    (tk : List (Nat × STask)) (cn : List Nat) (tid label : Nat) (delay : ℚ) :
    ∀ (m : Nat) (τ : ℚ),
      List.Chain' (fun a b : ℚ => a + delay ≤ b)
        (τ :: actTimes ⟨now2, rd, sl, tk, cn, cycleLog tid label delay m τ⟩) := by
  intro m
  induction m with
  | zero =>
      intro τ
      show List.Chain' _ [τ]
      exact List.chain'_singleton τ
  | succ m ih =>
      intro τ
      show List.Chain' _ (τ :: (τ + delay) ::
        actTimes ⟨now2, rd, sl, tk, cn, cycleLog tid label delay m (τ + delay)⟩)
      rw [List.chain'_cons]
      exact ⟨le_refl _, ih (τ + delay)⟩

theorem wakes_yieldLog (now2 : ℚ) (rd sl : List STask) (tk : List (Nat × STask))
    (cn : List Nat) (tid label : Nat) (τ : ℚ) :
    ∀ m : Nat,
      wakes ⟨now2, rd, sl, tk, cn, yieldLog tid label τ m⟩
        = List.replicate m label := by
  intro m
  induction m with
  | zero => rfl
  | succ m ih =>
      show label :: wakes ⟨now2, rd, sl, tk, cn, yieldLog tid label τ m⟩ = _
      rw [ih]
      rfl

theorem actTimes_yieldLog (now2 : ℚ) (rd sl : List STask)
    (tk : List (Nat × STask)) (cn : List Nat) (tid label : Nat) (τ : ℚ) :
    ∀ m : Nat,
      actTimes ⟨now2, rd, sl, tk, cn, yieldLog tid label τ m⟩
        = List.replicate m τ := by
  intro m
  induction m with
  | zero => rfl
  | succ m ih =>
      show τ :: actTimes ⟨now2, rd, sl, tk, cn, yieldLog tid label τ m⟩ = _
      rw [ih]
      rfl

theorem wakes_foreverLog (now2 : ℚ) (rd sl : List STask)
    (tk : List (Nat × STask)) (cn : List Nat) (tid label : Nat) (delay : ℚ) :
    ∀ (f : Nat) (τ : ℚ),
      wakes ⟨now2, rd, sl, tk, cn, foreverLog tid label delay f τ⟩
        = List.replicate f label := by
  intro f
  induction f with
  | zero => intro τ; rfl
  | succ f ih =>
      intro τ
      show label ::
        wakes ⟨now2, rd, sl, tk, cn, foreverLog tid label delay f (τ + delay)⟩
        = _
      rw [ih]
      rfl

theorem wakes_foreverYieldLog (now2 : ℚ) (rd sl : List STask)
    (tk : List (Nat × STask)) (cn : List Nat) (tid label : Nat) (τ : ℚ) :
    ∀ f : Nat,
      wakes ⟨now2, rd, sl, tk, cn, foreverYieldLog tid label τ f⟩
        = List.replicate f label := by
  intro f
  induction f with
  | zero => rfl
  | succ f ih =>
      show label :: wakes ⟨now2, rd, sl, tk, cn, foreverYieldLog tid label τ f⟩ = _
      rw [ih]
      rfl


theorem sleep_cycle (tid label : Nat) (delay : ℚ) (hd : 0 < delay) :
    ∀ (m : Nat) (τ : ℚ) (lg : List Ev) (tk : List (Nat × STask)) (fuel : Nat),
      m + 1 ≤ fuel →
      ∃ (tk2 : List (Nat × STask)) (τ2 : ℚ),
        run fuel ⟨τ, [], [⟨tid, wrapped label delay m, τ + delay⟩], tk, [], lg⟩
          = ⟨τ2, [], [], tk2, [], lg ++ cycleLog tid label delay m τ⟩ := by
  intro m
  induction m with
  | zero =>
      intro τ lg tk fuel hf
      cases fuel with
      | zero => exact absurd hf (by omega)
      | succ f =>
          refine ⟨dictDel tk tid, τ + delay, ?_⟩
          rw [show run (f + 1)
                ⟨τ, [], [⟨tid, wrapped label delay 0, τ + delay⟩], tk, [], lg⟩
              = run f (runIter
                ⟨τ, [], [⟨tid, wrapped label delay 0, τ + delay⟩], tk, [], lg⟩)
              from rfl]
          rw [runIter_sleeping τ (τ + delay) lg tk tid (wrapped label delay 0)
            (not_le.mpr (by linarith))]
          rw [show afterResume
              ⟨τ + delay, [], [], dictDel tk tid, [],
                lg ++ Ev.resumed tid (τ + delay) ::
                  ((wrapped label delay 0).resume).1.map
                    (fun l => Ev.acted tid l (τ + delay))⟩
              ⟨tid, wrapped label delay 0, τ + delay⟩
              ((wrapped label delay 0).resume).2
              = ⟨τ + delay, [], [], dictDel tk tid, [],
                  lg ++ [Ev.resumed tid (τ + delay)]⟩ from rfl]
          exact run_empty f _ rfl rfl
  | succ m ih =>
      intro τ lg tk fuel hf
      cases fuel with
      | zero => exact absurd hf (by omega)
      | succ f =>
          have hres : (wrapped label delay (m + 1)).resume
              = ([label], Outcome.slept delay (wrapped label delay m)) := by
            rw [show wrapped label delay (m + 1)
                = Coro.act label
                    (if 0 < delay then Coro.sleepC delay (wrapped label delay m)
                     else Coro.yieldC (wrapped label delay m)) from rfl,
              if_pos hd]
            rfl
          obtain ⟨tk2, τ2, hrun⟩ := ih (τ + delay)
            (lg ++ [Ev.resumed tid (τ + delay), Ev.acted tid label (τ + delay)])
            (dictSet (dictDel tk tid) tid
              ⟨tid, wrapped label delay m, τ + delay + delay⟩)
            f (by omega)
          refine ⟨tk2, τ2, ?_⟩
          rw [show run (f + 1)
                ⟨τ, [], [⟨tid, wrapped label delay (m + 1), τ + delay⟩], tk, [], lg⟩
              = run f (runIter
                ⟨τ, [], [⟨tid, wrapped label delay (m + 1), τ + delay⟩], tk, [], lg⟩)
              from rfl]
          rw [runIter_sleeping τ (τ + delay) lg tk tid
            (wrapped label delay (m + 1)) (not_le.mpr (by linarith))]
          rw [show afterResume
              ⟨τ + delay, [], [], dictDel tk tid, [],
                lg ++ Ev.resumed tid (τ + delay) ::
                  ((wrapped label delay (m + 1)).resume).1.map
                    (fun l => Ev.acted tid l (τ + delay))⟩
              ⟨tid, wrapped label delay (m + 1), τ + delay⟩
              ((wrapped label delay (m + 1)).resume).2
              = ⟨τ + delay, [],
                  [⟨tid, wrapped label delay m, τ + delay + delay⟩],
                  dictSet (dictDel tk tid) tid
                    ⟨tid, wrapped label delay m, τ + delay + delay⟩,
                  [], lg ++ [Ev.resumed tid (τ + delay),
                    Ev.acted tid label (τ + delay)]⟩ from by rw [hres]; rfl]
          rw [hrun, List.append_assoc]
          rfl

theorem yield_cycle (tid label : Nat) (delay : ℚ) (hd : ¬ 0 < delay) :
    ∀ (m : Nat) (τ d0 : ℚ) (lg : List Ev) (tk : List (Nat × STask)) (fuel : Nat),
      m + 1 ≤ fuel →
      ∃ tk2 : List (Nat × STask),
        run fuel ⟨τ, [⟨tid, wrapped label delay m, d0⟩], [], tk, [], lg⟩
          = ⟨τ, [], [], tk2, [], lg ++ yieldLog tid label τ m⟩ := by
  intro m
  induction m with
  | zero =>
      intro τ d0 lg tk fuel hf
      cases fuel with
      | zero => exact absurd hf (by omega)
      | succ f =>
          refine ⟨dictDel tk tid, ?_⟩
          rw [show run (f + 1)
                ⟨τ, [⟨tid, wrapped label delay 0, d0⟩], [], tk, [], lg⟩
              = run f (runIter
                ⟨τ, [⟨tid, wrapped label delay 0, d0⟩], [], tk, [], lg⟩)
              from rfl]
          rw [runIter_ready τ d0 lg tk tid (wrapped label delay 0)]
          rw [show afterResume
              ⟨τ, [], [], dictDel tk tid, [],
                lg ++ Ev.resumed tid τ ::
                  ((wrapped label delay 0).resume).1.map
                    (fun l => Ev.acted tid l τ)⟩
              ⟨tid, wrapped label delay 0, d0⟩
              ((wrapped label delay 0).resume).2
              = ⟨τ, [], [], dictDel tk tid, [],
                  lg ++ [Ev.resumed tid τ]⟩ from rfl]
          exact run_empty f _ rfl rfl
  | succ m ih =>
      intro τ d0 lg tk fuel hf
      cases fuel with
      | zero => exact absurd hf (by omega)
      | succ f =>
          have hres : (wrapped label delay (m + 1)).resume
              = ([label], Outcome.yielded (wrapped label delay m)) := by
            rw [show wrapped label delay (m + 1)
                = Coro.act label
                    (if 0 < delay then Coro.sleepC delay (wrapped label delay m)
                     else Coro.yieldC (wrapped label delay m)) from rfl,
              if_neg hd]
            rfl
          obtain ⟨tk2, hrun⟩ := ih τ d0
            (lg ++ [Ev.resumed tid τ, Ev.acted tid label τ])
            (dictSet (dictDel tk tid) tid ⟨tid, wrapped label delay m, d0⟩)
            f (by omega)
          refine ⟨tk2, ?_⟩
          rw [show run (f + 1)
                ⟨τ, [⟨tid, wrapped label delay (m + 1), d0⟩], [], tk, [], lg⟩
              = run f (runIter
                ⟨τ, [⟨tid, wrapped label delay (m + 1), d0⟩], [], tk, [], lg⟩)
              from rfl]
          rw [runIter_ready τ d0 lg tk tid (wrapped label delay (m + 1))]
          rw [show afterResume
              ⟨τ, [], [], dictDel tk tid, [],
                lg ++ Ev.resumed tid τ ::
                  ((wrapped label delay (m + 1)).resume).1.map
                    (fun l => Ev.acted tid l τ)⟩
              ⟨tid, wrapped label delay (m + 1), d0⟩
              ((wrapped label delay (m + 1)).resume).2
              = ⟨τ, [⟨tid, wrapped label delay m, d0⟩], [],
                  dictSet (dictDel tk tid) tid ⟨tid, wrapped label delay m, d0⟩,
                  [], lg ++ [Ev.resumed tid τ, Ev.acted tid label τ]⟩
              from by rw [hres]; rfl]
          rw [hrun, List.append_assoc]
          rfl

theorem forever_sleep_cycle (tid label : Nat) (delay : ℚ) (hd : 0 < delay) :
    ∀ (f : Nat) (τ : ℚ) (lg : List Ev) (tk : List (Nat × STask)),
      ∃ (tk2 : List (Nat × STask)) (τ2 : ℚ),
        run f ⟨τ, [], [⟨tid, Coro.forever label delay, τ + delay⟩], tk, [], lg⟩
          = ⟨τ2, [], [⟨tid, Coro.forever label delay, τ2 + delay⟩], tk2, [],
              lg ++ foreverLog tid label delay f τ⟩ := by
  intro f
  induction f with
  | zero =>
      intro τ lg tk
      refine ⟨tk, τ, ?_⟩
      show (⟨τ, [], [⟨tid, Coro.forever label delay, τ + delay⟩], tk, [], lg⟩
        : Sched) = _
      rw [show foreverLog tid label delay 0 τ = [] from rfl, List.append_nil]
  | succ f ih =>
      intro τ lg tk
      have hres : (Coro.forever label delay).resume
          = ([label], Outcome.slept delay (Coro.forever label delay)) := by
        rw [show (Coro.forever label delay).resume
            = (if 0 < delay
               then (([label], Outcome.slept delay (Coro.forever label delay))
                 : List Nat × Outcome)
               else ([label], Outcome.yielded (Coro.forever label delay)))
            from rfl, if_pos hd]
      obtain ⟨tk2, τ2, hrun⟩ := ih (τ + delay)
        (lg ++ [Ev.resumed tid (τ + delay), Ev.acted tid label (τ + delay)])
        (dictSet (dictDel tk tid) tid
          ⟨tid, Coro.forever label delay, τ + delay + delay⟩)
      refine ⟨tk2, τ2, ?_⟩
      rw [show run (f + 1)
            ⟨τ, [], [⟨tid, Coro.forever label delay, τ + delay⟩], tk, [], lg⟩
          = run f (runIter
            ⟨τ, [], [⟨tid, Coro.forever label delay, τ + delay⟩], tk, [], lg⟩)
          from rfl]
      rw [runIter_sleeping τ (τ + delay) lg tk tid (Coro.forever label delay)
        (not_le.mpr (by linarith))]
      rw [show afterResume
          ⟨τ + delay, [], [], dictDel tk tid, [],
            lg ++ Ev.resumed tid (τ + delay) ::
              ((Coro.forever label delay).resume).1.map
                (fun l => Ev.acted tid l (τ + delay))⟩
          ⟨tid, Coro.forever label delay, τ + delay⟩
          ((Coro.forever label delay).resume).2
          = ⟨τ + delay, [],
              [⟨tid, Coro.forever label delay, τ + delay + delay⟩],
              dictSet (dictDel tk tid) tid
                ⟨tid, Coro.forever label delay, τ + delay + delay⟩,
              [], lg ++ [Ev.resumed tid (τ + delay),
                Ev.acted tid label (τ + delay)]⟩ from by rw [hres]; rfl]
      rw [hrun, List.append_assoc]
      rfl

theorem forever_yield_cycle (tid label : Nat) (delay : ℚ) (hd : ¬ 0 < delay) :
    ∀ (f : Nat) (τ d0 : ℚ) (lg : List Ev) (tk : List (Nat × STask)),
      ∃ tk2 : List (Nat × STask),
        run f ⟨τ, [⟨tid, Coro.forever label delay, d0⟩], [], tk, [], lg⟩
          = ⟨τ, [⟨tid, Coro.forever label delay, d0⟩], [], tk2, [],
              lg ++ foreverYieldLog tid label τ f⟩ := by
  intro f
  induction f with
  | zero =>
      intro τ d0 lg tk
      refine ⟨tk, ?_⟩
      show (⟨τ, [⟨tid, Coro.forever label delay, d0⟩], [], tk, [], lg⟩
        : Sched) = _
      rw [show foreverYieldLog tid label τ 0 = [] from rfl, List.append_nil]
  | succ f ih =>
      intro τ d0 lg tk
      have hres : (Coro.forever label delay).resume
          = ([label], Outcome.yielded (Coro.forever label delay)) := by
        rw [show (Coro.forever label delay).resume
            = (if 0 < delay
               then (([label], Outcome.slept delay (Coro.forever label delay))
                 : List Nat × Outcome)
               else ([label], Outcome.yielded (Coro.forever label delay)))
            from rfl, if_neg hd]
      obtain ⟨tk2, hrun⟩ := ih τ d0
        (lg ++ [Ev.resumed tid τ, Ev.acted tid label τ])
        (dictSet (dictDel tk tid) tid ⟨tid, Coro.forever label delay, d0⟩)
      refine ⟨tk2, ?_⟩
      rw [show run (f + 1)
            ⟨τ, [⟨tid, Coro.forever label delay, d0⟩], [], tk, [], lg⟩
          = run f (runIter
            ⟨τ, [⟨tid, Coro.forever label delay, d0⟩], [], tk, [], lg⟩)
          from rfl]
      rw [runIter_ready τ d0 lg tk tid (Coro.forever label delay)]
      rw [show afterResume
          ⟨τ, [], [], dictDel tk tid, [],
            lg ++ Ev.resumed tid τ ::
              ((Coro.forever label delay).resume).1.map
                (fun l => Ev.acted tid l τ)⟩
          ⟨tid, Coro.forever label delay, d0⟩
          ((Coro.forever label delay).resume).2
          = ⟨τ, [⟨tid, Coro.forever label delay, d0⟩], [],
              dictSet (dictDel tk tid) tid ⟨tid, Coro.forever label delay, d0⟩,
              [], lg ++ [Ev.resumed tid τ, Ev.acted tid label τ]⟩
          from by rw [hres]; rfl]
      rw [hrun, List.append_assoc]
      rfl


theorem cancel_run (tid : Nat) (w : Coro) :
    Sched.cancel (run_soon initSched [(tid, w)]) tid
      = Except.ok (taskCancel (run_soon initSched [(tid, w)]) tid) ∧
    ∀ fuel,
      wakes (run fuel (taskCancel (run_soon initSched [(tid, w)]) tid)) = [] := by
  have hs : run_soon initSched [(tid, w)]
      = ⟨0, [⟨tid, w, 0⟩], [], [(tid, ⟨tid, w, 0⟩)], [], []⟩ := rfl
  have hdm : dictMem [(tid, (⟨tid, w, 0⟩ : STask))] tid = true := by
    simp [dictMem]
  have hc : taskCancel (run_soon initSched [(tid, w)]) tid
      = ⟨0, [⟨tid, w, 0⟩], [], [(tid, ⟨tid, w, 0⟩)], [tid], []⟩ := by
    unfold taskCancel
    rw [hs]
    rw [if_neg (List.not_mem_nil tid)]
    rfl
  constructor
  · unfold Sched.cancel
    rw [hs, if_pos hdm]
  · intro fuel
    rw [hc]
    cases fuel with
    | zero => rfl
    | succ f =>
        rw [show run (f + 1) ⟨0, [⟨tid, w, 0⟩], [], [(tid, ⟨tid, w, 0⟩)], [tid], []⟩
            = run f (runIter
                ⟨0, [⟨tid, w, 0⟩], [], [(tid, ⟨tid, w, 0⟩)], [tid], []⟩)
            from rfl]
        have hri : runIter ⟨0, [⟨tid, w, 0⟩], [], [(tid, ⟨tid, w, 0⟩)], [tid], []⟩
            = ⟨0, [], [], dictDel [(tid, ⟨tid, w, 0⟩)] tid, [tid], []⟩ := by
          show afterPop ⟨0, [], [], [(tid, ⟨tid, w, 0⟩)], [tid], []⟩ ⟨tid, w, 0⟩ = _
          unfold afterPop
          rw [if_pos (List.mem_cons_self tid [])]
        rw [hri]
        have hdd : dictDel [(tid, (⟨tid, w, 0⟩ : STask))] tid = [] := by
          simp [dictDel]
        rw [hdd, run_empty f _ rfl rfl]
        rfl

/-- C5: `schedule(action, delay, n)` submits a wrapped coroutine that —
run from a fresh scheduler — invokes the action exactly `n` times when
`n` is non-zero, draining both queues within `n + 1` loop iterations.
On the sleep path (`delay > 0`) the invocations happen at virtual times
`0, delay, ..., (n-1)*delay`, so consecutive invocations are at least
`delay` apart and never overlap; otherwise (`next_task()` path) all `n`
invocations happen at virtual time `0`.  With `n = 0` (`while True`) the
action is invoked once per loop iteration, indefinitely: `fuel`
iterations perform exactly `fuel` invocations for every `fuel`.
Canceling the returned handle (`Scheduler.cancel` finds its registry
entry and sets `is_canceled`) stops all future invocations: no action
ever runs afterwards, for any amount of fuel. -/
theorem schedule_behavior (tid label : Nat) (delay : ℚ) :
    (∀ n : Nat, 0 < delay →
      wakes (run (n + 2) (schedule initSched tid label delay (n + 1)).1)
          = List.replicate (n + 1) label ∧
      actTimes (run (n + 2) (schedule initSched tid label delay (n + 1)).1)
          = (List.range (n + 1)).map (fun j : Nat => (j : ℚ) * delay) ∧
      List.Chain' (fun a b : ℚ => a + delay ≤ b)
        (actTimes (run (n + 2) (schedule initSched tid label delay (n + 1)).1)) ∧
      (run (n + 2) (schedule initSched tid label delay (n + 1)).1).ready = [] ∧
      (run (n + 2) (schedule initSched tid label delay (n + 1)).1).sleeping = []) ∧
    (∀ n : Nat, ¬ 0 < delay →
      wakes (run (n + 2) (schedule initSched tid label delay (n + 1)).1)
          = List.replicate (n + 1) label ∧
      actTimes (run (n + 2) (schedule initSched tid label delay (n + 1)).1)
          = List.replicate (n + 1) 0 ∧
      (run (n + 2) (schedule initSched tid label delay (n + 1)).1).ready = [] ∧
      (run (n + 2) (schedule initSched tid label delay (n + 1)).1).sleeping = []) ∧
    (∀ fuel : Nat,
      wakes (run fuel (schedule initSched tid label delay 0).1)
          = List.replicate fuel label) ∧
    (∀ n : Nat,
      Sched.cancel (schedule initSched tid label delay n).1
          (schedule initSched tid label delay n).2
        = Except.ok (taskCancel (schedule initSched tid label delay n).1 tid) ∧
      ∀ fuel : Nat,
        wakes (run fuel
          (taskCancel (schedule initSched tid label delay n).1 tid)) = []) := by
  refine ⟨?_, ?_, ?_,
    fun n => cancel_run tid
      (if n = 0 then Coro.forever label delay else wrapped label delay n)⟩
  · intro n hd
    have hres : (wrapped label delay (n + 1)).resume
        = ([label], Outcome.slept delay (wrapped label delay n)) := by
      rw [show wrapped label delay (n + 1)
          = Coro.act label
              (if 0 < delay then Coro.sleepC delay (wrapped label delay n)
               else Coro.yieldC (wrapped label delay n)) from rfl,
        if_pos hd]
      rfl
    have hiter1 : runIter ⟨0, [⟨tid, wrapped label delay (n + 1), 0⟩], [],
          [(tid, ⟨tid, wrapped label delay (n + 1), 0⟩)], [], []⟩
        = ⟨0, [], [⟨tid, wrapped label delay n, 0 + delay⟩],
            dictSet (dictDel [(tid, ⟨tid, wrapped label delay (n + 1), 0⟩)] tid)
              tid ⟨tid, wrapped label delay n, 0 + delay⟩,
            [], [Ev.resumed tid 0, Ev.acted tid label 0]⟩ := by
      rw [runIter_ready 0 0 [] [(tid, ⟨tid, wrapped label delay (n + 1), 0⟩)]
        tid (wrapped label delay (n + 1)), hres]
      rfl
    obtain ⟨tk2, τ2, hrun⟩ := sleep_cycle tid label delay hd n 0
      [Ev.resumed tid 0, Ev.acted tid label 0]
      (dictSet (dictDel [(tid, ⟨tid, wrapped label delay (n + 1), 0⟩)] tid)
        tid ⟨tid, wrapped label delay n, 0 + delay⟩)
      (n + 1) (le_refl _)
    have hfull : run (n + 2) (schedule initSched tid label delay (n + 1)).1
        = ⟨τ2, [], [], tk2, [],
            [Ev.resumed tid 0, Ev.acted tid label 0]
              ++ cycleLog tid label delay n 0⟩ := by
      rw [show (schedule initSched tid label delay (n + 1)).1
          = ⟨0, [⟨tid, wrapped label delay (n + 1), 0⟩], [],
              [(tid, ⟨tid, wrapped label delay (n + 1), 0⟩)], [], []⟩ from rfl]
      rw [show run (n + 2) ⟨0, [⟨tid, wrapped label delay (n + 1), 0⟩], [],
            [(tid, ⟨tid, wrapped label delay (n + 1), 0⟩)], [], []⟩
          = run (n + 1) (runIter
              ⟨0, [⟨tid, wrapped label delay (n + 1), 0⟩], [],
                [(tid, ⟨tid, wrapped label delay (n + 1), 0⟩)], [], []⟩)
          from rfl]
      rw [hiter1, hrun]
    rw [hfull]
    refine ⟨?_, ?_, ?_, rfl, rfl⟩
    · show label :: wakes ⟨τ2, [], [], tk2, [], cycleLog tid label delay n 0⟩ = _
      rw [wakes_cycleLog]
      rfl
    · show (0 : ℚ) ::
        actTimes ⟨τ2, [], [], tk2, [], cycleLog tid label delay n 0⟩ = _
      rw [actTimes_cycleLog, List.range_succ_eq_map, List.map_cons, List.map_map]
      congr 1
      · show (0 : ℚ) = ((0 : Nat) : ℚ) * delay
        push_cast
        ring
      · apply List.map_congr_left
        intro j _
        simp only [Function.comp_apply]
        push_cast
        ring
    · show List.Chain' (fun a b : ℚ => a + delay ≤ b)
        ((0 : ℚ) :: actTimes ⟨τ2, [], [], tk2, [], cycleLog tid label delay n 0⟩)
      exact actTimes_cycleLog_chain τ2 [] [] tk2 [] tid label delay n 0
  · intro n hd
    have hres : (wrapped label delay (n + 1)).resume
        = ([label], Outcome.yielded (wrapped label delay n)) := by
      rw [show wrapped label delay (n + 1)
          = Coro.act label
              (if 0 < delay then Coro.sleepC delay (wrapped label delay n)
               else Coro.yieldC (wrapped label delay n)) from rfl,
        if_neg hd]
      rfl
    have hiter1 : runIter ⟨0, [⟨tid, wrapped label delay (n + 1), 0⟩], [],
          [(tid, ⟨tid, wrapped label delay (n + 1), 0⟩)], [], []⟩
        = ⟨0, [⟨tid, wrapped label delay n, 0⟩], [],
            dictSet (dictDel [(tid, ⟨tid, wrapped label delay (n + 1), 0⟩)] tid)
              tid ⟨tid, wrapped label delay n, 0⟩,
            [], [Ev.resumed tid 0, Ev.acted tid label 0]⟩ := by
      rw [runIter_ready 0 0 [] [(tid, ⟨tid, wrapped label delay (n + 1), 0⟩)]
        tid (wrapped label delay (n + 1)), hres]
      rfl
    obtain ⟨tk2, hrun⟩ := yield_cycle tid label delay hd n 0 0
      [Ev.resumed tid 0, Ev.acted tid label 0]
      (dictSet (dictDel [(tid, ⟨tid, wrapped label delay (n + 1), 0⟩)] tid)
        tid ⟨tid, wrapped label delay n, 0⟩)
      (n + 1) (le_refl _)
    have hfull : run (n + 2) (schedule initSched tid label delay (n + 1)).1
        = ⟨0, [], [], tk2, [],
            [Ev.resumed tid 0, Ev.acted tid label 0]
              ++ yieldLog tid label 0 n⟩ := by
      rw [show (schedule initSched tid label delay (n + 1)).1
          = ⟨0, [⟨tid, wrapped label delay (n + 1), 0⟩], [],
              [(tid, ⟨tid, wrapped label delay (n + 1), 0⟩)], [], []⟩ from rfl]
      rw [show run (n + 2) ⟨0, [⟨tid, wrapped label delay (n + 1), 0⟩], [],
            [(tid, ⟨tid, wrapped label delay (n + 1), 0⟩)], [], []⟩
          = run (n + 1) (runIter
              ⟨0, [⟨tid, wrapped label delay (n + 1), 0⟩], [],
                [(tid, ⟨tid, wrapped label delay (n + 1), 0⟩)], [], []⟩)
          from rfl]
      rw [hiter1, hrun]
    rw [hfull]
    refine ⟨?_, ?_, rfl, rfl⟩
    · show label :: wakes ⟨0, [], [], tk2, [], yieldLog tid label 0 n⟩ = _
      rw [wakes_yieldLog]
      rfl
    · show (0 : ℚ) :: actTimes ⟨0, [], [], tk2, [], yieldLog tid label 0 n⟩ = _
      rw [actTimes_yieldLog]
      rfl
  · intro fuel
    by_cases hd : 0 < delay
    · cases fuel with
      | zero => rfl
      | succ f =>
          have hres : (Coro.forever label delay).resume
              = ([label], Outcome.slept delay (Coro.forever label delay)) := by
            rw [show (Coro.forever label delay).resume
                = (if 0 < delay
                   then (([label], Outcome.slept delay (Coro.forever label delay))
                     : List Nat × Outcome)
                   else ([label], Outcome.yielded (Coro.forever label delay)))
                from rfl, if_pos hd]
          have hiter1 : runIter ⟨0, [⟨tid, Coro.forever label delay, 0⟩], [],
                [(tid, ⟨tid, Coro.forever label delay, 0⟩)], [], []⟩
              = ⟨0, [], [⟨tid, Coro.forever label delay, 0 + delay⟩],
                  dictSet
                    (dictDel [(tid, ⟨tid, Coro.forever label delay, 0⟩)] tid)
                    tid ⟨tid, Coro.forever label delay, 0 + delay⟩,
                  [], [Ev.resumed tid 0, Ev.acted tid label 0]⟩ := by
            rw [runIter_ready 0 0 [] [(tid, ⟨tid, Coro.forever label delay, 0⟩)]
              tid (Coro.forever label delay), hres]
            rfl
          obtain ⟨tk2, τ2, hrun⟩ := forever_sleep_cycle tid label delay hd f 0
            [Ev.resumed tid 0, Ev.acted tid label 0]
            (dictSet (dictDel [(tid, ⟨tid, Coro.forever label delay, 0⟩)] tid)
              tid ⟨tid, Coro.forever label delay, 0 + delay⟩)
          rw [show (schedule initSched tid label delay 0).1
              = ⟨0, [⟨tid, Coro.forever label delay, 0⟩], [],
                  [(tid, ⟨tid, Coro.forever label delay, 0⟩)], [], []⟩ from rfl]
          rw [show run (f + 1) ⟨0, [⟨tid, Coro.forever label delay, 0⟩], [],
                [(tid, ⟨tid, Coro.forever label delay, 0⟩)], [], []⟩
              = run f (runIter
                  ⟨0, [⟨tid, Coro.forever label delay, 0⟩], [],
                    [(tid, ⟨tid, Coro.forever label delay, 0⟩)], [], []⟩)
              from rfl]
          rw [hiter1, hrun]
          show label :: wakes ⟨τ2, [], [⟨tid, Coro.forever label delay, τ2 + delay⟩],
            tk2, [], foreverLog tid label delay f 0⟩ = _
          rw [wakes_foreverLog]
          rfl
    · cases fuel with
      | zero => rfl
      | succ f =>
          have hres : (Coro.forever label delay).resume
              = ([label], Outcome.yielded (Coro.forever label delay)) := by
            rw [show (Coro.forever label delay).resume
                = (if 0 < delay
                   then (([label], Outcome.slept delay (Coro.forever label delay))
                     : List Nat × Outcome)
                   else ([label], Outcome.yielded (Coro.forever label delay)))
                from rfl, if_neg hd]
          have hiter1 : runIter ⟨0, [⟨tid, Coro.forever label delay, 0⟩], [],
                [(tid, ⟨tid, Coro.forever label delay, 0⟩)], [], []⟩
              = ⟨0, [⟨tid, Coro.forever label delay, 0⟩], [],
                  dictSet
                    (dictDel [(tid, ⟨tid, Coro.forever label delay, 0⟩)] tid)
                    tid ⟨tid, Coro.forever label delay, 0⟩,
                  [], [Ev.resumed tid 0, Ev.acted tid label 0]⟩ := by
            rw [runIter_ready 0 0 [] [(tid, ⟨tid, Coro.forever label delay, 0⟩)]
              tid (Coro.forever label delay), hres]
            rfl
          obtain ⟨tk2, hrun⟩ := forever_yield_cycle tid label delay hd f 0 0
            [Ev.resumed tid 0, Ev.acted tid label 0]
            (dictSet (dictDel [(tid, ⟨tid, Coro.forever label delay, 0⟩)] tid)
              tid ⟨tid, Coro.forever label delay, 0⟩)
          rw [show (schedule initSched tid label delay 0).1
              = ⟨0, [⟨tid, Coro.forever label delay, 0⟩], [],
                  [(tid, ⟨tid, Coro.forever label delay, 0⟩)], [], []⟩ from rfl]
          rw [show run (f + 1) ⟨0, [⟨tid, Coro.forever label delay, 0⟩], [],
                [(tid, ⟨tid, Coro.forever label delay, 0⟩)], [], []⟩
              = run f (runIter
                  ⟨0, [⟨tid, Coro.forever label delay, 0⟩], [],
                    [(tid, ⟨tid, Coro.forever label delay, 0⟩)], [], []⟩)
              from rfl]
          rw [hiter1, hrun]
          show label :: wakes ⟨0, [⟨tid, Coro.forever label delay, 0⟩], [],
            tk2, [], foreverYieldLog tid label 0 f⟩ = _
          rw [wakes_foreverYieldLog]
          rfl

theorem schedule_behavior_witness :
    wakes (run 5 (schedule initSched 0 7 1 4).1) = List.replicate 4 7 ∧
    actTimes (run 5 (schedule initSched 0 7 1 4).1)
        = (List.range 4).map (fun j : Nat => (j : ℚ) * 1) ∧
    List.Chain' (fun a b : ℚ => a + 1 ≤ b)
      (actTimes (run 5 (schedule initSched 0 7 1 4).1)) ∧
    (run 5 (schedule initSched 0 7 1 4).1).ready = [] ∧
    (run 5 (schedule initSched 0 7 1 4).1).sleeping = [] :=
  (schedule_behavior 0 7 1).1 3 (by decide)

end Nurses
